import Mathlib

/-!
A verification development for the VAST core: the value-index layer
(`value_index` wrapper and its concrete subclasses), the query scheduler of
`system/index.cpp`, and the segment reader/writer of `segment.cc`.

The embedding translates the C++ sources into executable Lean definitions.
The compressed-bitmap primitive (EWAH) and the coder layer are not part of
the provided sources; they are modelled from the specification (spec §4.1),
as noted on each such definition.  Machine integers are modelled as `Nat`
and `Int`; all sizes in the claims stay far below any overflow boundary.
-/

set_option autoImplicit false

namespace Vast

/-! ## Bitmaps (`ids` / `ewah_bitmap`)

Modelled from the spec: the EWAH bitmap primitive (spec §4.1) is not in the
provided sources.  A bitmap is a finite list of bits; `append_bit`,
`append_bits`, `size`, AND/OR/NOT/SUB and the `all<0>/all<1>` tests follow
the operation list of spec §4.1.  Binary operations treat positions past an
operand's size as 0, and the result extends to the longer operand. -/

abbrev Ids : Type := List Bool

namespace Ids

/-- Size of the bitmap (number of stored bits). -/
def size (a : Ids) : Nat := List.length a

/-- Bit at position `i`; positions past `size` read as 0. -/
def testBit (a : Ids) (i : Nat) : Bool := List.getD a i false

/-- `ids{n, b}`: a bitmap of `n` copies of bit `b`. -/
def mkIds (n : Nat) (b : Bool) : Ids := List.replicate n b

/-- `append_bit`. -/
def appendBit (a : Ids) (b : Bool) : Ids := a ++ [b]

/-- `append_bits(b, n)`. -/
def appendBits (a : Ids) (b : Bool) (n : Nat) : Ids := a ++ List.replicate n b

/-- Pointwise binary operation, extended to the longer operand with 0s. -/
def pointwise (f : Bool → Bool → Bool) (a b : Ids) : Ids :=
  (List.range (max (size a) (size b))).map
    (fun i => f (testBit a i) (testBit b i))

/-- Bitwise AND. -/
def and (a b : Ids) : Ids := pointwise (fun x y => x && y) a b

/-- Bitwise OR. -/
def or (a b : Ids) : Ids := pointwise (fun x y => x || y) a b

/-- Bitwise difference `a - b` (that is, `a & ~b`). -/
def sub (a b : Ids) : Ids := pointwise (fun x y => x && !y) a b

/-- `~a` / `flip()`: complement within the bitmap's own size. -/
def flip (a : Ids) : Ids := List.map not a

/-- `all<0>`: does the bitmap consist entirely of 0-bits? -/
def all0 (a : Ids) : Bool := List.all a (fun b => b = false)

/-- `all<1>`: does the bitmap consist entirely of 1-bits? -/
def all1 (a : Ids) : Bool := List.all a (fun b => b = true)

theorem testBit_pointwise (f : Bool → Bool → Bool) (hf : f false false = false)
    (a b : Ids) (i : Nat) :
    testBit (pointwise f a b) i = f (testBit a i) (testBit b i) := by
  unfold pointwise testBit
  rcases Nat.lt_or_ge i (max (size a) (size b)) with h | h
  · rw [List.getD_eq_getElem?_getD, List.getElem?_map, List.getElem?_range h]
    simp [testBit]
  · have h1 : List.length a ≤ i := le_trans (le_max_left _ _) h
    have h2 : List.length b ≤ i := le_trans (le_max_right _ _) h
    have h3 : (List.range (max (size a) (size b))).length ≤ i := by
      simpa using h
    rw [List.getD_eq_default _ _ (by simpa using h3),
        List.getD_eq_default _ _ h1, List.getD_eq_default _ _ h2, hf]

theorem testBit_and (a b : Ids) (i : Nat) :
    testBit (and a b) i = (testBit a i && testBit b i) :=
  testBit_pointwise _ rfl a b i

theorem testBit_or (a b : Ids) (i : Nat) :
    testBit (or a b) i = (testBit a i || testBit b i) :=
  testBit_pointwise _ rfl a b i

theorem testBit_sub (a b : Ids) (i : Nat) :
    testBit (sub a b) i = (testBit a i && !testBit b i) :=
  testBit_pointwise _ rfl a b i

theorem testBit_mkIds (n : Nat) (b : Bool) (i : Nat) :
    testBit (mkIds n b) i = if i < n then b else false := by
  unfold mkIds testBit
  rcases Nat.lt_or_ge i n with h | h
  · rw [List.getD_eq_getElem?_getD, List.getElem?_replicate]
    simp [h]
  · rw [List.getD_eq_default _ _ (by simpa using h)]
    simp [Nat.not_lt.mpr h]

theorem testBit_appendBit_old (a : Ids) (b : Bool) (i : Nat) (h : i < size a) :
    testBit (appendBit a b) i = testBit a i := by
  unfold appendBit testBit
  rw [List.getD_eq_getElem?_getD, List.getElem?_append_left h,
      List.getD_eq_getElem?_getD]

theorem testBit_appendBits_old (a : Ids) (b : Bool) (n : Nat) (i : Nat)
    (h : i < size a) :
    testBit (appendBits a b n) i = testBit a i := by
  unfold appendBits testBit
  rw [List.getD_eq_getElem?_getD, List.getElem?_append_left h,
      List.getD_eq_getElem?_getD]

theorem testBit_of_all0 (a : Ids) (h : all0 a = true) (i : Nat) :
    testBit a i = false := by
  unfold all0 at h
  unfold testBit
  rcases Nat.lt_or_ge i (List.length a) with h2 | h2
  · have hm : a[i] ∈ a := List.getElem_mem h2
    have := List.all_eq_true.mp h _ hm
    rw [List.getD_eq_getElem?_getD, List.getElem?_eq_getElem h2]
    simpa using this
  · rw [List.getD_eq_default _ _ h2]

end Ids

/-! ## Bitmap indexes (`bitmap_index<T, Coder, Binner>`)

Modelled from the spec: the coder layer (spec §4.1) is not in the provided
sources.  A coder translates values to bit positions; `skip(n)` advances the
position counter without recording a value; `append(x)` records the (binned)
value at the next position; `lookup(op, x)` yields the bitmap of positions
whose recorded value stands in relation `op` to `x`.  A skipped position
holds no value and matches no lookup.  The positional base of a multi-level
coder and the width of a bitslice coder only tune space usage (spec §4.1)
and do not appear in this value-level model. -/

structure BitmapIndex (α : Type) where
  rows : List (Option α)

instance (α : Type) [DecidableEq α] : DecidableEq (BitmapIndex α) := by
  intro a b
  cases a
  cases b
  simp only [BitmapIndex.mk.injEq]
  infer_instance

namespace BitmapIndex

variable {α : Type}

/-- The empty bitmap index (also the state of a default-constructed or
lazily initialized coder). -/
def empty : BitmapIndex α := ⟨[]⟩

/-- `size()`: number of positions covered. -/
def size (bi : BitmapIndex α) : Nat := List.length bi.rows

/-- `skip(n)`: advance by `n` positions holding no value. -/
def skip (bi : BitmapIndex α) (n : Nat) : BitmapIndex α :=
  ⟨bi.rows ++ List.replicate n Option.none⟩

/-- `append(x)`: record value `x` at the next position. -/
def append (bi : BitmapIndex α) (x : α) : BitmapIndex α :=
  ⟨bi.rows ++ [Option.some x]⟩

/-- The value recorded at position `i` (`Option.none` when skipped or out of
range). -/
def rowAt (bi : BitmapIndex α) (i : Nat) : Option α :=
  List.getD bi.rows i Option.none

/-- `lookup` under an arbitrary predicate on the recorded value: the bitmap
of positions whose recorded value satisfies it. -/
def lookupP (bi : BitmapIndex α) (p : α → Bool) : Ids :=
  List.map (fun r => Option.elim r false p) bi.rows

/-- The pattern `skip(pos - size); append(x)` used by every `append_impl`. -/
def place (bi : BitmapIndex α) (pos : Nat) (x : α) : BitmapIndex α :=
  (bi.skip (pos - bi.size)).append x

theorem testBit_lookupP (bi : BitmapIndex α) (p : α → Bool) (i : Nat) :
    Ids.testBit (bi.lookupP p) i = Option.elim (bi.rowAt i) false p := by
  unfold lookupP rowAt Ids.testBit
  rcases Nat.lt_or_ge i (List.length bi.rows) with h | h
  · rw [List.getD_eq_getElem?_getD, List.getElem?_map,
        List.getElem?_eq_getElem h, List.getD_eq_getElem?_getD,
        List.getElem?_eq_getElem h]
    simp
  · rw [List.getD_eq_default _ _ (by simpa using h), List.getD_eq_default _ _ h]
    simp

theorem size_lookupP (bi : BitmapIndex α) (p : α → Bool) :
    Ids.size (bi.lookupP p) = bi.size := by
  unfold lookupP Ids.size size
  simp

theorem size_place (bi : BitmapIndex α) (pos : Nat) (x : α)
    (h : bi.size ≤ pos) : (bi.place pos x).size = pos + 1 := by
  unfold place append skip size at *
  simp only [List.length_append, List.length_replicate, List.length_cons,
    List.length_nil]
  omega

theorem rowAt_place_self (bi : BitmapIndex α) (pos : Nat) (x : α)
    (h : bi.size ≤ pos) : (bi.place pos x).rowAt pos = Option.some x := by
  unfold place append skip rowAt size at *
  rw [List.append_assoc, List.getD_eq_getElem?_getD,
      List.getElem?_append_right (by simpa using h)]
  have : pos - List.length bi.rows < (List.replicate (pos - List.length bi.rows)
      (Option.none (α := α)) ++ [Option.some x]).length := by
    simp
  rw [List.getElem?_append_right (by simp)]
  simp

theorem rowAt_place_old (bi : BitmapIndex α) (pos : Nat) (x : α) (i : Nat)
    (h : i < bi.size) : (bi.place pos x).rowAt i = bi.rowAt i := by
  unfold place append skip rowAt size at *
  rw [List.append_assoc, List.getD_eq_getElem?_getD,
      List.getElem?_append_left (by simpa using h),
      List.getD_eq_getElem?_getD]

theorem size_le_size_place (bi : BitmapIndex α) (pos : Nat) (x : α) :
    bi.size ≤ (bi.place pos x).size := by
  unfold place append skip size
  simp only [List.length_append, List.length_replicate, List.length_cons,
    List.length_nil]
  omega

theorem size_place_le (bi : BitmapIndex α) (pos : Nat) (x : α) (k : Nat)
    (hp : pos < k) (hs : bi.size ≤ pos) : (bi.place pos x).size ≤ k := by
  rw [size_place bi pos x hs]
  omega

end BitmapIndex

end Vast

namespace Vast

/-! ## Data model

The tagged-union value representation (`data_view`), restricted to the
kinds the value-index layer of the provided sources consumes: `nil`,
arithmetic values (bool/int/count/timespan/timestamp, collapsed to `Int`;
the floating-point `real` kind is likewise modelled on `Int`), strings
(byte lists), IP addresses (16 bytes), subnets, ports, vectors and sets. -/

inductive Data where
  | none
  | num (z : Int)
  | str (s : List Nat)
  | addr (bytes : List Nat)
  | subnetV (bytes : List Nat) (len : Nat)
  | portV (n : Nat) (t : Nat)
  | vec (xs : List Data)
  | setData (xs : List Data)

/-- `caf::ip_address::embeds_v4`: the address is a v4-mapped v6 address
(leading bytes `::ffff:`).  Modelled from the spec (the address class is
not in the provided sources). -/
def embedsV4 (bytes : List Nat) : Bool :=
  decide (List.take 12 bytes = [0, 0, 0, 0, 0, 0, 0, 0, 0, 0, 255, 255])

/-- `relational_operator`. -/
inductive RelOp where
  | equal
  | notEqual
  | less
  | lessEqual
  | greater
  | greaterEqual
  | inOp
  | notIn
  | ni
  | notNi
deriving DecidableEq

/-- Error codes (`vast::ec`), restricted to the kinds the embedded code
raises plus `invalid_argument` (raised by the scheduler and named by the
spec's error table). -/
inductive Ec where
  | unspecified
  | unsupportedOperator
  | typeClash
  | invalidArgument
deriving DecidableEq

/-- Binners (spec §4.1): `identity_binner` and `decimal_binner<P>`
(divide by `10^P`); these are the binners `value_index::make` selects. -/
inductive Binner where
  | identity
  | decimal (p : Nat)
deriving DecidableEq

def Binner.apply : Binner → Int → Int
  | Binner.identity, z => z
  | Binner.decimal p, z => z / ((10 : Int) ^ p)

/-- The scalar (non-container) types for which `value_index::make` builds
an index. -/
inductive ScalarTy where
  | booleanS
  | integerS
  | countS
  | realS
  | timespanS
  | timestampS
  | stringS
  | addrS
  | subnetS
  | portS
deriving DecidableEq

/-! ## Value-index states

`value_index` is the universal wrapper holding `mask_` and `none_` over a
subclass state (source: class `value_index` and its subclasses).  The
subnet index holds a nested `address_index` complete with its own wrapper
bitmaps, exactly as `subnet_index::network_` is itself a `value_index`. -/

/-- `address_index` subclass state: 16 byte indexes plus the
embeds-v4 singleton bitmap. -/
structure AddrIdx where
  bytes_ : List (BitmapIndex Nat)
  v4_ : BitmapIndex Bool
deriving DecidableEq

def AddrIdx.empty : AddrIdx :=
  ⟨List.replicate 16 BitmapIndex.empty, BitmapIndex.empty⟩

/-- The universal `value_index` wrapper over a subclass state `σ`:
`mask_` is set at every appended position, `none_` at every appended nil
position. -/
structure VI (σ : Type) where
  mask_ : Ids
  none_ : Ids
  sub : σ

instance (σ : Type) [DecidableEq σ] : DecidableEq (VI σ) := by
  intro a b
  cases a
  cases b
  simp only [VI.mk.injEq]
  infer_instance

/-- `value_index::offset()`: `return mask_.size();`. -/
def VI.offset {σ : Type} (vi : VI σ) : Nat := vi.mask_.size

/-- The scalar subclass states: arithmetic, string, address, subnet, port
(source: `arithmetic_index`, `string_index`, `address_index`,
`subnet_index`, `port_index`). -/
inductive ScalarSub where
  | arith (bin : Binner) (bmi : BitmapIndex Int)
  | strI (maxLength : Nat) (length_ : BitmapIndex Nat)
      (chars_ : List (BitmapIndex Nat))
  | addrI (a : AddrIdx)
  | subnetI (network_ : VI AddrIdx) (length_ : BitmapIndex Nat)
  | portI (num_ : BitmapIndex Nat) (proto_ : BitmapIndex Nat)
deriving DecidableEq

/-- All subclass states: a scalar state or the sequence index over an
element type (source: `sequence_index`). -/
inductive SubIdx where
  | scalar (s : ScalarSub)
  | seqI (valueType : ScalarTy) (maxSize : Nat) (size_ : BitmapIndex Nat)
      (elements_ : List (VI ScalarSub))
deriving DecidableEq

/-- A complete value index: the wrapper over a subclass state. -/
abbrev ValueIndex := VI SubIdx

/-! ## Appending (`value_index::append` and the `append_impl`s) -/

/-- `value_index::append(data_view x, id pos)` generically over the
subclass `append_impl`.  The pair returns the C++ `expected<void>` result
together with the post-call state; on failure the subclass mutation (if
any) is kept and `mask_`/`none_` stay untouched, exactly as in the source. -/
def wrapAppendWith {σ : Type} (ai : σ → Data → Nat → Bool × σ)
    (vi : VI σ) (x : Data) (pos : Nat) : Except Ec Unit × VI σ :=
  let off := vi.mask_.size
  if pos < off then
    (Except.error Ec.unspecified, vi)
  else
    match x with
    | Data.none =>
        let n2 := (vi.none_.appendBits false (pos - vi.none_.size)).appendBit
          true
        (Except.ok (),
         { mask_ := (vi.mask_.appendBits false (pos - off)).appendBit true,
           none_ := n2, sub := vi.sub })
    | _ =>
        match ai vi.sub x pos with
        | (true, sub2) =>
            (Except.ok (),
             { mask_ := (vi.mask_.appendBits false (pos - off)).appendBit true,
               none_ := vi.none_, sub := sub2 })
        | (false, sub2) =>
            (Except.error Ec.unspecified,
             { mask_ := vi.mask_, none_ := vi.none_, sub := sub2 })

/-- The byte/v4 updates of `address_index::append_impl`. -/
def addrPlace (a : AddrIdx) (pos : Nat) (bytes : List Nat) : AddrIdx :=
  ⟨(List.range 16).map (fun i =>
      (a.bytes_.getD i BitmapIndex.empty).place pos (bytes.getD i 0)),
   a.v4_.place pos (embedsV4 bytes)⟩

/-- `address_index::append_impl`. -/
def addrAppendImplCore (a : AddrIdx) (x : Data) (pos : Nat) : Bool × AddrIdx :=
  match x with
  | Data.addr bytes => (true, addrPlace a pos bytes)
  | _ => (false, a)

/-- `value_index::append` of the nested `subnet_index::network_` index;
`static_cast<bool>` of the `expected<void>`. -/
def addrVIAppend (vi : VI AddrIdx) (x : Data) (pos : Nat) :
    Bool × VI AddrIdx :=
  match wrapAppendWith addrAppendImplCore vi x pos with
  | (Except.ok _, vi2) => (true, vi2)
  | (Except.error _, vi2) => (false, vi2)

/-- The `append_impl` of each scalar subclass (sources:
`arithmetic_index::append_impl`, `string_index::append_impl`,
`address_index::append_impl`, `subnet_index::append_impl`,
`port_index::append_impl`).  The string case resizes `chars_` to the
(truncated) length and records each character; the list rebuild keeps
entries past the current length untouched. -/
def scalarAppendImpl (s : ScalarSub) (x : Data) (pos : Nat) :
    Bool × ScalarSub :=
  match s with
  | ScalarSub.arith bin bmi =>
      match x with
      | Data.num z => (true, ScalarSub.arith bin (bmi.place pos (bin.apply z)))
      | _ => (false, s)
  | ScalarSub.strI maxLength length_ chars_ =>
      match x with
      | Data.str t =>
          let len := min (List.length t) maxLength
          let chars2 := (List.range (max (List.length chars_) len)).map
            (fun j =>
              if j < len then
                (chars_.getD j BitmapIndex.empty).place pos (t.getD j 0)
              else chars_.getD j BitmapIndex.empty)
          (true, ScalarSub.strI maxLength (length_.place pos len) chars2)
      | _ => (false, s)
  | ScalarSub.addrI a =>
      match addrAppendImplCore a x pos with
      | (b, a2) => (b, ScalarSub.addrI a2)
  | ScalarSub.subnetI network_ length_ =>
      match x with
      | Data.subnetV bytes len =>
          let length2 := length_.place pos len
          match addrVIAppend network_ (Data.addr bytes) pos with
          | (b, network2) => (b, ScalarSub.subnetI network2 length2)
      | _ => (false, s)
  | ScalarSub.portI num_ proto_ =>
      match x with
      | Data.portV n t =>
          (true, ScalarSub.portI (num_.place pos n) (proto_.place pos t))
      | _ => (false, s)

/-- `value_index::append(x, pos)` on a scalar-subclass index (used for the
element indexes of a sequence index). -/
def scalarVIAppend (vi : VI ScalarSub) (x : Data) (pos : Nat) :
    Except Ec Unit × VI ScalarSub :=
  wrapAppendWith scalarAppendImpl vi x pos

/-- `value_index::make` for the scalar element type of a sequence index
(`sequence_index::container_append` calls `value_index::make(value_type_)`;
the element type carries no attributes, so every factory branch takes its
default parameters). -/
def makeScalar : ScalarTy → VI ScalarSub
  | ScalarTy.booleanS =>
      ⟨[], [], ScalarSub.arith Binner.identity BitmapIndex.empty⟩
  | ScalarTy.integerS =>
      ⟨[], [], ScalarSub.arith Binner.identity BitmapIndex.empty⟩
  | ScalarTy.countS =>
      ⟨[], [], ScalarSub.arith Binner.identity BitmapIndex.empty⟩
  | ScalarTy.realS =>
      ⟨[], [], ScalarSub.arith Binner.identity BitmapIndex.empty⟩
  | ScalarTy.timespanS =>
      ⟨[], [], ScalarSub.arith (Binner.decimal 9) BitmapIndex.empty⟩
  | ScalarTy.timestampS =>
      ⟨[], [], ScalarSub.arith (Binner.decimal 9) BitmapIndex.empty⟩
  | ScalarTy.stringS =>
      ⟨[], [], ScalarSub.strI 1024 BitmapIndex.empty []⟩
  | ScalarTy.addrS => ⟨[], [], ScalarSub.addrI AddrIdx.empty⟩
  | ScalarTy.subnetS =>
      ⟨[], [], ScalarSub.subnetI ⟨[], [], AddrIdx.empty⟩ BitmapIndex.empty⟩
  | ScalarTy.portS =>
      ⟨[], [], ScalarSub.portI BitmapIndex.empty BitmapIndex.empty⟩

/-- `sequence_index::container_append`: truncate to `max_size_`, grow the
element vector lazily with fresh element indexes, append each element at
`pos` (each element append's `expected` result is discarded, as in the
source), and record the (truncated) size. -/
def containerAppend (valueType : ScalarTy) (maxSize : Nat)
    (size_ : BitmapIndex Nat) (elements_ : List (VI ScalarSub))
    (xs : List Data) (pos : Nat) : SubIdx :=
  let seqSize := min (List.length xs) maxSize
  let elements1 :=
    if seqSize > List.length elements_ then
      elements_ ++ (List.range (seqSize - List.length elements_)).map
        (fun _ => makeScalar valueType)
    else elements_
  let elements2 := (List.range (List.length elements1)).map (fun i =>
    if i < seqSize then
      (scalarVIAppend (elements1.getD i (makeScalar valueType))
        (xs.getD i Data.none) pos).2
    else elements1.getD i (makeScalar valueType))
  SubIdx.seqI valueType maxSize (size_.place pos seqSize) elements2

/-- `sequence_index::append_impl`. -/
def seqAppendImpl (valueType : ScalarTy) (maxSize : Nat)
    (size_ : BitmapIndex Nat) (elements_ : List (VI ScalarSub))
    (x : Data) (pos : Nat) : Bool × SubIdx :=
  match x with
  | Data.vec xs =>
      (true, containerAppend valueType maxSize size_ elements_ xs pos)
  | Data.setData xs =>
      (true, containerAppend valueType maxSize size_ elements_ xs pos)
  | _ => (false, SubIdx.seqI valueType maxSize size_ elements_)

/-- Dispatch of `append_impl` over all subclass states. -/
def subAppendImpl (s : SubIdx) (x : Data) (pos : Nat) : Bool × SubIdx :=
  match s with
  | SubIdx.scalar sc =>
      match scalarAppendImpl sc x pos with
      | (b, sc2) => (b, SubIdx.scalar sc2)
  | SubIdx.seqI vt ms sz els => seqAppendImpl vt ms sz els x pos

/-- `value_index::append(data_view x, id pos)`. -/
def ValueIndex.append (vi : ValueIndex) (x : Data) (pos : Nat) :
    Except Ec Unit × ValueIndex :=
  wrapAppendWith subAppendImpl vi x pos

/-- `value_index::append(data_view x)`: `return append(x, offset());`. -/
def ValueIndex.appendEnd (vi : ValueIndex) (x : Data) :
    Except Ec Unit × ValueIndex :=
  ValueIndex.append vi x vi.offset

/-- Appending a whole sequence in order through the one-argument
`append`. -/
def buildFrom (vi0 : ValueIndex) (xs : List Data) : ValueIndex :=
  xs.foldl (fun vi x => (ValueIndex.appendEnd vi x).2) vi0

end Vast

namespace Vast

/-! ## Lookups (`value_index::lookup` and the `lookup_impl`s) -/

/-- `arithmetic_index::lookup_impl` on an arithmetic value: the underlying
`bitmap_index` lookup, with the binner applied to the query value (coder
model per spec §4.1; the multi-level range coder answers the six
comparison operators). -/
def arithLookup (bin : Binner) (bmi : BitmapIndex Int) (op : RelOp)
    (z : Int) : Except Ec Ids :=
  let v := bin.apply z
  match op with
  | RelOp.equal => Except.ok (bmi.lookupP (fun w => decide (w = v)))
  | RelOp.notEqual => Except.ok (bmi.lookupP (fun w => decide (w ≠ v)))
  | RelOp.less => Except.ok (bmi.lookupP (fun w => decide (w < v)))
  | RelOp.lessEqual => Except.ok (bmi.lookupP (fun w => decide (w ≤ v)))
  | RelOp.greater => Except.ok (bmi.lookupP (fun w => decide (w > v)))
  | RelOp.greaterEqual => Except.ok (bmi.lookupP (fun w => decide (w ≥ v)))
  | _ => Except.error Ec.unsupportedOperator

/-- The equality loop of `string_index::lookup_impl` (`=`/`≠` case): AND
the per-position character equalities into `result`, with the source's
`all<0>` early exit returning `ids{offset(), op == not_equal}`, and the
final flip for `≠`. -/
def strEqLoop (chars_ : List (BitmapIndex Nat)) (q : List Nat) (off : Nat)
    (ne : Bool) (count : Nat) (j : Nat) (result : Ids) : Ids :=
  match count with
  | 0 => if ne then result.flip else result
  | c + 1 =>
      let b := (chars_.getD j BitmapIndex.empty).lookupP
        (fun c2 => decide (c2 = q.getD j 0))
      let r2 := result.and b
      if r2.all0 then Ids.mkIds off ne
      else strEqLoop chars_ q off ne c (j + 1) r2

/-- The `=`/`≠` case of `string_index::lookup_impl` (`ne` selects `≠`):
truncate the query, answer the zero-length case from the length index,
reject query strings longer than `chars_`, and otherwise AND the
`length ≤ |s|` bitmap with the per-position character equalities. -/
def strLookupEqNe (maxLength : Nat) (length_ : BitmapIndex Nat)
    (chars_ : List (BitmapIndex Nat)) (off : Nat) (ne : Bool)
    (s : List Nat) : Ids :=
  let qlen := min (List.length s) maxLength
  if qlen = 0 then
    let r := length_.lookupP (fun l => decide (l = 0))
    if ne then r.flip else r
  else if qlen > List.length chars_ then Ids.mkIds off ne
  else
    let r0 := length_.lookupP (fun l => decide (l ≤ qlen))
    if r0.all0 then Ids.mkIds off ne
    else strEqLoop chars_ (s.take maxLength) off ne qlen 0 r0

/-- The inner window loop of the `ni`/`!ni` case of
`string_index::lookup_impl`: AND the character equalities of one window;
`Option.none` encodes the source's `skip` flag (a character bitmap was
all-zero). -/
def strNiInner (chars_ : List (BitmapIndex Nat)) (q : List Nat) (i : Nat)
    (count : Nat) (j : Nat) (substr : Ids) : Option Ids :=
  match count with
  | 0 => Option.some substr
  | c + 1 =>
      let bm := (chars_.getD (i + j) BitmapIndex.empty).lookupP
        (fun c2 => decide (c2 = q.getD j 0))
      if bm.all0 then Option.none
      else strNiInner chars_ q i c (j + 1) (substr.and bm)

/-- The outer window loop of the `ni`/`!ni` case: OR the non-skipped
windows; `count` is the number of remaining window offsets. -/
def strNiOuter (chars_ : List (BitmapIndex Nat)) (q : List Nat) (off : Nat)
    (count : Nat) (i : Nat) (result : Ids) : Ids :=
  match count with
  | 0 => result
  | c + 1 =>
      let r2 :=
        match strNiInner chars_ q i (List.length q) 0
            (Ids.mkIds off true) with
        | Option.some substr => result.or substr
        | Option.none => result
      strNiOuter chars_ q off c (i + 1) r2

/-- The `ni`/`!ni` case of `string_index::lookup_impl` (`nn` selects
`!ni`): slide a window over all offsets `i ∈ [0, chars_.size - |s|]`,
AND the per-position equalities, OR over windows; flip for `!ni`. -/
def strLookupNi (maxLength : Nat) (chars_ : List (BitmapIndex Nat))
    (off : Nat) (nn : Bool) (s : List Nat) : Ids :=
  let qlen := min (List.length s) maxLength
  if qlen = 0 then Ids.mkIds off (!nn)
  else if qlen > List.length chars_ then Ids.mkIds off nn
  else
    let r := strNiOuter chars_ (s.take maxLength) off
      (List.length chars_ - qlen + 1) 0 (Ids.mkIds off false)
    if nn then r.flip else r

/-- `string_index::lookup_impl` on a string value. -/
def strLookupImpl (maxLength : Nat) (length_ : BitmapIndex Nat)
    (chars_ : List (BitmapIndex Nat)) (off : Nat) (op : RelOp)
    (s : List Nat) : Except Ec Ids :=
  match op with
  | RelOp.equal =>
      Except.ok (strLookupEqNe maxLength length_ chars_ off false s)
  | RelOp.notEqual =>
      Except.ok (strLookupEqNe maxLength length_ chars_ off true s)
  | RelOp.ni => Except.ok (strLookupNi maxLength chars_ off false s)
  | RelOp.notNi => Except.ok (strLookupNi maxLength chars_ off true s)
  | _ => Except.error Ec.unsupportedOperator

/-- The raw singleton-coder storage of `address_index::v4_`
(`v4_.coder().storage()`): the bitmap of positions appended with `true`. -/
def v4Storage (a : AddrIdx) : Ids := a.v4_.lookupP (fun b => b)

/-- One bitmap of the bitslice-coder storage of a byte index
(`bytes_[i].coder().storage()[bit]`).  Modelled from the spec (coder layer,
spec §4.1) with the polarity the source's subnet path relies on: the
stored bitmap marks positions whose byte has a 0 at `bit`, so the source's
`(bytes[i] >> bit) & 1 ? ~bm : bm` selects positions agreeing with the
query bit. -/
def sliceStorage (bi : BitmapIndex Nat) (bit : Nat) : Ids :=
  bi.lookupP (fun w => decide ((w >>> bit) % 2 = 0))

/-- The byte-equality loop of the address branch of
`address_index::lookup_impl`, with the `all<0>` early exit. -/
def addrEqLoop (a : AddrIdx) (bytes : List Nat) (off : Nat) (ne : Bool)
    (count : Nat) (i : Nat) (result : Ids) : Ids :=
  match count with
  | 0 => if ne then result.flip else result
  | c + 1 =>
      let bm := (a.bytes_.getD i BitmapIndex.empty).lookupP
        (fun w => decide (w = bytes.getD i 0))
      let r2 := result.and bm
      if r2.all0 then Ids.mkIds off ne
      else addrEqLoop a bytes off ne c (i + 1) r2

/-- The address branch of `address_index::lookup_impl` (`=`/`≠`): start
from the v4 bitmap when the query embeds v4 (skipping the leading 12
bytes), else from the all-ones bitmap; AND the byte equalities. -/
def addrLookupAddr (a : AddrIdx) (off : Nat) (ne : Bool)
    (bytes : List Nat) : Ids :=
  let start := if embedsV4 bytes then 12 else 0
  let r0 := if embedsV4 bytes then v4Storage a else Ids.mkIds off true
  addrEqLoop a bytes off ne (16 - start) start r0

/-- The whole-byte loop of the subnet branch of
`address_index::lookup_impl`: consume 8 prefix bits per fully-covered
byte. -/
def addrSubnetByteLoop (a : AddrIdx) (bytes : List Nat) (count : Nat)
    (i : Nat) (topk : Nat) (result : Ids) : Nat × Nat × Ids :=
  match count with
  | 0 => (i, topk, result)
  | c + 1 =>
      if 8 ≤ topk then
        addrSubnetByteLoop a bytes c (i + 1) (topk - 8)
          (result.and ((a.bytes_.getD i BitmapIndex.empty).lookupP
            (fun w => decide (w = bytes.getD i 0))))
      else (i, topk, result)

/-- The remaining-bit loop of the subnet branch: combine the top
`topk mod 8` bits of the next byte from the bitslice storage. -/
def addrSubnetBitLoop (bi : BitmapIndex Nat) (byteVal : Nat) (count : Nat)
    (j : Nat) (result : Ids) : Ids :=
  match count with
  | 0 => result
  | c + 1 =>
      let bit := 7 - j
      let bm := sliceStorage bi bit
      let r2 := result.and
        (if (byteVal >>> bit) % 2 = 1 then bm.flip else bm)
      addrSubnetBitLoop bi byteVal c (j + 1) r2

/-- The subnet branch of `address_index::lookup_impl` (`in`/`!in`, `nin`
selects `!in`): reject prefix length 0, reduce `/32` (v4) and `/128` to an
equality lookup, and otherwise mask whole bytes via byte equality and the
remaining bits via the bitslice storage. -/
def addrLookupSubnet (a : AddrIdx) (off : Nat) (nin : Bool)
    (bytes : List Nat) (topk : Nat) : Except Ec Ids :=
  if topk = 0 then Except.error Ec.unspecified
  else
    let isV4 := embedsV4 bytes
    if (if isV4 then topk + 96 else topk) = 128 then
      Except.ok (addrLookupAddr a off nin bytes)
    else
      let r0 := if isV4 then v4Storage a else Ids.mkIds off true
      let i0 := if isV4 then 12 else 0
      match addrSubnetByteLoop a bytes (16 - i0) i0 topk r0 with
      | (i1, topk1, r1) =>
          let r2 := addrSubnetBitLoop (a.bytes_.getD i1 BitmapIndex.empty)
            (bytes.getD i1 0) topk1 0 r1
          Except.ok (if nin then r2.flip else r2)

/-- `address_index::lookup_impl` on a non-container value. -/
def addrLookupImplCore (a : AddrIdx) (off : Nat) (op : RelOp) (x : Data) :
    Except Ec Ids :=
  match x with
  | Data.addr bytes =>
      if op = RelOp.equal then Except.ok (addrLookupAddr a off false bytes)
      else if op = RelOp.notEqual then
        Except.ok (addrLookupAddr a off true bytes)
      else Except.error Ec.unsupportedOperator
  | Data.subnetV bytes len =>
      if op = RelOp.inOp then addrLookupSubnet a off false bytes len
      else if op = RelOp.notIn then addrLookupSubnet a off true bytes len
      else Except.error Ec.unsupportedOperator
  | _ => Except.error Ec.typeClash

/-- `value_index::lookup` of the nested `subnet_index::network_` index.
The subnet code paths only feed it address and subnet values, so the
container branches of the full wrapper are never reached here and are
omitted. -/
def addrVILookup (vi : VI AddrIdx) (op : RelOp) (x : Data) :
    Except Ec Ids :=
  match x with
  | Data.none =>
      if op = RelOp.equal then Except.ok (vi.none_.and vi.mask_)
      else if op = RelOp.notEqual then
        Except.ok (vi.none_.flip.and vi.mask_)
      else Except.error Ec.unsupportedOperator
  | _ =>
      match addrLookupImplCore vi.sub vi.mask_.size op x with
      | Except.error e => Except.error e
      | Except.ok r => Except.ok ((r.sub vi.none_).and vi.mask_)

/-- The `ni`/`!ni` loop of `subnet_index::lookup_impl`: union over every
`k ∈ [1, len]` of (network in query/k AND length == k); `k` counts up,
`count` many iterations remain. -/
def subnetNiLoop (network_ : VI AddrIdx) (length_ : BitmapIndex Nat)
    (bytes : List Nat) (count : Nat) (k : Nat) (result : Ids) :
    Except Ec Ids :=
  match count with
  | 0 => Except.ok result
  | c + 1 =>
      match addrVILookup network_ RelOp.inOp (Data.subnetV bytes k) with
      | Except.error e => Except.error e
      | Except.ok xs =>
          subnetNiLoop network_ length_ bytes c (k + 1)
            (result.or (xs.and (length_.lookupP (fun l => decide (l = k)))))

/-- `subnet_index::lookup_impl` on a subnet value. -/
def subnetLookupImplCore (network_ : VI AddrIdx)
    (length_ : BitmapIndex Nat) (op : RelOp) (bytes : List Nat)
    (len : Nat) : Except Ec Ids :=
  match op with
  | RelOp.equal =>
      match addrVILookup network_ RelOp.equal (Data.addr bytes) with
      | Except.error e => Except.error e
      | Except.ok r =>
          Except.ok (r.and (length_.lookupP (fun l => decide (l = len))))
  | RelOp.notEqual =>
      match addrVILookup network_ RelOp.equal (Data.addr bytes) with
      | Except.error e => Except.error e
      | Except.ok r =>
          Except.ok ((r.and (length_.lookupP
            (fun l => decide (l = len)))).flip)
  | RelOp.inOp =>
      match addrVILookup network_ RelOp.inOp (Data.subnetV bytes len) with
      | Except.error e => Except.error e
      | Except.ok r =>
          Except.ok (r.and (length_.lookupP (fun l => decide (len ≤ l))))
  | RelOp.notIn =>
      match addrVILookup network_ RelOp.inOp (Data.subnetV bytes len) with
      | Except.error e => Except.error e
      | Except.ok r =>
          Except.ok ((r.and (length_.lookupP
            (fun l => decide (len ≤ l)))).flip)
  | RelOp.ni =>
      subnetNiLoop network_ length_ bytes len 1 []
  | RelOp.notNi =>
      match subnetNiLoop network_ length_ bytes len 1 [] with
      | Except.error e => Except.error e
      | Except.ok r => Except.ok r.flip
  | _ => Except.error Ec.unsupportedOperator

/-- The number lookup of `port_index::lookup_impl` (multi-level range
coder over the port number, spec §4.1). -/
def portNumLookup (num_ : BitmapIndex Nat) (op : RelOp) (n : Nat) :
    Except Ec Ids :=
  match op with
  | RelOp.equal => Except.ok (num_.lookupP (fun w => decide (w = n)))
  | RelOp.notEqual => Except.ok (num_.lookupP (fun w => decide (w ≠ n)))
  | RelOp.less => Except.ok (num_.lookupP (fun w => decide (w < n)))
  | RelOp.lessEqual => Except.ok (num_.lookupP (fun w => decide (w ≤ n)))
  | RelOp.greater => Except.ok (num_.lookupP (fun w => decide (w > n)))
  | RelOp.greaterEqual => Except.ok (num_.lookupP (fun w => decide (w ≥ n)))
  | _ => Except.error Ec.unsupportedOperator

/-- `port_index::lookup_impl` on a port value: `in`/`!in` are rejected;
the number lookup is ANDed with the protocol equality unless the protocol
is `unknown` (0). -/
def portLookupCore (num_ : BitmapIndex Nat) (proto_ : BitmapIndex Nat)
    (off : Nat) (op : RelOp) (n : Nat) (t : Nat) : Except Ec Ids :=
  if op = RelOp.inOp ∨ op = RelOp.notIn then
    Except.error Ec.unsupportedOperator
  else
    match portNumLookup num_ op n with
    | Except.error e => Except.error e
    | Except.ok r =>
        if r.all0 then Except.ok (Ids.mkIds off false)
        else if t ≠ 0 then
          Except.ok (r.and (proto_.lookupP (fun w => decide (w = t))))
        else Except.ok r

end Vast

namespace Vast

/-! ## The wrapper lookup and container decomposition

`value_index::lookup` post-processes every subclass result with
`(result - none_) & mask_` and answers `== nil` / `!= nil` from `none_`.
`detail::container_lookup_impl` decomposes `in`/`!in` over a vector or set
by ORing (resp. subtracting) the wrapper-level equality lookups of the
elements, with `all<1>`/`all<0>` short-circuits.

In the source this is mutually recursive through `value_index::lookup`,
but the recursion bottoms out after one level: element lookups always use
`equal`, and a nested container element then lands in
`container_lookup`'s unsupported-operator branch.  The embedding
stratifies accordingly: the element-level lookup (`scalarEqElem`) answers
container elements with that same unsupported-operator error directly,
which keeps every definition structurally recursive. -/

/-- `caf::holds_alternative<caf::none_t>(x)`. -/
def isNil (x : Data) : Bool :=
  match x with
  | Data.none => true
  | _ => false

/-- The non-container cases of the scalar `lookup_impl`s (sources:
`arithmetic_index::lookup_impl`, `string_index::lookup_impl`,
`address_index::lookup_impl`, `subnet_index::lookup_impl`,
`port_index::lookup_impl` after its offset-0 guard); data of any other
shape clashes with the index type. -/
def scalarImplScalarData (vi : VI ScalarSub) (op : RelOp) (x : Data) :
    Except Ec Ids :=
  match vi.sub with
  | ScalarSub.arith bin bmi =>
      match x with
      | Data.num z => arithLookup bin bmi op z
      | _ => Except.error Ec.typeClash
  | ScalarSub.strI maxLength length_ chars_ =>
      match x with
      | Data.str s =>
          strLookupImpl maxLength length_ chars_ vi.mask_.size op s
      | _ => Except.error Ec.typeClash
  | ScalarSub.addrI a =>
      match x with
      | Data.addr bytes =>
          addrLookupImplCore a vi.mask_.size op (Data.addr bytes)
      | Data.subnetV bytes len =>
          addrLookupImplCore a vi.mask_.size op (Data.subnetV bytes len)
      | _ => Except.error Ec.typeClash
  | ScalarSub.subnetI network_ length_ =>
      match x with
      | Data.subnetV bytes len =>
          subnetLookupImplCore network_ length_ op bytes len
      | _ => Except.error Ec.typeClash
  | ScalarSub.portI num_ proto_ =>
      match x with
      | Data.portV n t => portLookupCore num_ proto_ vi.mask_.size op n t
      | _ => Except.error Ec.typeClash

/-- `lookup_impl` on a scalar index, parameterized by the handler for
vector/set query data (`detail::container_lookup`); the port index's
offset-0 guard precedes everything else, as in the source. -/
def scalarLookupImplWith
    (container : VI ScalarSub → RelOp → List Data → Except Ec Ids)
    (vi : VI ScalarSub) (op : RelOp) (x : Data) : Except Ec Ids :=
  match vi.sub with
  | ScalarSub.portI _ _ =>
      if vi.mask_.size = 0 then Except.ok []
      else
        match x with
        | Data.vec xs => container vi op xs
        | Data.setData xs => container vi op xs
        | y => scalarImplScalarData vi op y
  | _ =>
      match x with
      | Data.vec xs => container vi op xs
      | Data.setData xs => container vi op xs
      | y => scalarImplScalarData vi op y

/-- `lookup_impl` as reached from an element-level `lookup(equal, x)`: a
container element would enter a nested `container_lookup`, which rejects
`equal` with `unsupported_operator`, so that error is produced
directly. -/
def scalarImplElem (vi : VI ScalarSub) (x : Data) : Except Ec Ids :=
  scalarLookupImplWith (fun _ _ _ => Except.error Ec.unsupportedOperator)
    vi RelOp.equal x

/-- `value_index::lookup(equal, x)` on a scalar index, as invoked on the
elements of `container_lookup_impl` and `sequence_index::lookup_impl`. -/
def scalarEqElem (vi : VI ScalarSub) (x : Data) : Except Ec Ids :=
  if isNil x then Except.ok (vi.none_.and vi.mask_)
  else
    match scalarImplElem vi x with
    | Except.error e => Except.error e
    | Except.ok r => Except.ok ((r.sub vi.none_).and vi.mask_)

/-- The `in` loop of `container_lookup_impl`, with the `all<1>`
short-circuit. -/
def containerLookupIn (vi : VI ScalarSub) (xs : List Data) (acc : Ids) :
    Except Ec Ids :=
  match xs with
  | [] => Except.ok acc
  | x :: rest =>
      match scalarEqElem vi x with
      | Except.error e => Except.error e
      | Except.ok r =>
          let acc2 := acc.or r
          if acc2.all1 then Except.ok acc2
          else containerLookupIn vi rest acc2

/-- The `!in` loop of `container_lookup_impl`, with the `all<0>`
short-circuit. -/
def containerLookupNotIn (vi : VI ScalarSub) (xs : List Data) (acc : Ids) :
    Except Ec Ids :=
  match xs with
  | [] => Except.ok acc
  | x :: rest =>
      match scalarEqElem vi x with
      | Except.error e => Except.error e
      | Except.ok r =>
          let acc2 := acc.sub r
          if acc2.all0 then Except.ok acc2
          else containerLookupNotIn vi rest acc2

/-- `detail::container_lookup_impl`: `in` as OR of element equalities,
`!in` as difference; other operators are unsupported. -/
def containerDispatch (vi : VI ScalarSub) (op : RelOp) (xs : List Data) :
    Except Ec Ids :=
  if op = RelOp.inOp then
    containerLookupIn vi xs (Ids.mkIds vi.mask_.size false)
  else if op = RelOp.notIn then
    containerLookupNotIn vi xs (Ids.mkIds vi.mask_.size true)
  else Except.error Ec.unsupportedOperator

/-- `lookup_impl` dispatched over the scalar subclasses; vector and set
query values go through `detail::container_lookup`. -/
def scalarLookupImpl (vi : VI ScalarSub) (op : RelOp) (x : Data) :
    Except Ec Ids :=
  scalarLookupImplWith containerDispatch vi op x

/-- `value_index::lookup` on a scalar-subclass index. -/
def scalarLookup (vi : VI ScalarSub) (op : RelOp) (x : Data) :
    Except Ec Ids :=
  if isNil x then
    if op = RelOp.equal then Except.ok (vi.none_.and vi.mask_)
    else if op = RelOp.notEqual then
      Except.ok (vi.none_.flip.and vi.mask_)
    else Except.error Ec.unsupportedOperator
  else
    match scalarLookupImpl vi op x with
    | Except.error e => Except.error e
    | Except.ok r => Except.ok ((r.sub vi.none_).and vi.mask_)


/-- The element loop of `sequence_index::lookup_impl`: OR the wrapper
equality lookups of the element indexes past the first. -/
def seqElemLoop (rest : List (VI ScalarSub)) (x : Data) (acc : Ids) :
    Except Ec Ids :=
  match rest with
  | [] => Except.ok acc
  | e :: more =>
      match scalarEqElem e x with
      | Except.error err => Except.error err
      | Except.ok mbm => seqElemLoop more x (acc.or mbm)

/-- `sequence_index::lookup_impl`: only `ni`/`!ni` are supported; with no
element indexes the result is the empty bitmap; otherwise the OR over all
element indexes of their `==` lookup, flipped for `!ni`. -/
def seqLookupImpl (elements_ : List (VI ScalarSub)) (op : RelOp)
    (x : Data) : Except Ec Ids :=
  if ¬(op = RelOp.ni ∨ op = RelOp.notNi) then
    Except.error Ec.unsupportedOperator
  else
    match elements_ with
    | [] => Except.ok []
    | e0 :: rest =>
        match scalarEqElem e0 x with
        | Except.error err => Except.error err
        | Except.ok r0 =>
            match seqElemLoop rest x r0 with
            | Except.error err => Except.error err
            | Except.ok r =>
                Except.ok (if op = RelOp.notNi then r.flip else r)

/-- `lookup_impl` dispatched over all subclass states. -/
def subLookupImpl (vi : ValueIndex) (op : RelOp) (x : Data) :
    Except Ec Ids :=
  match vi.sub with
  | SubIdx.scalar sc => scalarLookupImpl ⟨vi.mask_, vi.none_, sc⟩ op x
  | SubIdx.seqI _ _ _ elements_ => seqLookupImpl elements_ op x

/-- `value_index::lookup(relational_operator op, data_view x)`:
`== nil` / `!= nil` are answered from `none_` (intersected with `mask_`);
every other lookup returns `(lookup_impl(op, x) - none_) & mask_`. -/
def ValueIndex.lookup (vi : ValueIndex) (op : RelOp) (x : Data) :
    Except Ec Ids :=
  match x with
  | Data.none =>
      if op = RelOp.equal then Except.ok (vi.none_.and vi.mask_)
      else if op = RelOp.notEqual then
        Except.ok (vi.none_.flip.and vi.mask_)
      else Except.error Ec.unsupportedOperator
  | _ =>
      match subLookupImpl vi op x with
      | Except.error e => Except.error e
      | Except.ok r => Except.ok ((r.sub vi.none_).and vi.mask_)

end Vast

namespace Vast

/-! ## The factory (`value_index::make`)

Types carry an ordered attribute list; `value_index::make` reads the
`base`, `max_length` and `max_size` attributes.  The `alias` chain (a
plain recursive visit) is omitted. -/

inductive Ty where
  | noneT
  | booleanT
  | integerT (attrs : List (String × String))
  | countT (attrs : List (String × String))
  | realT (attrs : List (String × String))
  | timespanT (attrs : List (String × String))
  | timestampT (attrs : List (String × String))
  | stringT (attrs : List (String × String))
  | patternT
  | addrT
  | subnetT
  | portT
  | enumerationT
  | vectorT (elem : ScalarTy) (attrs : List (String × String))
  | setT (elem : ScalarTy) (attrs : List (String × String))
  | mapT
  | recordT
deriving DecidableEq

/-- `extract_attribute(t, key)`: the value of the first attribute with the
given key. -/
def extractAttribute (attrs : List (String × String)) (key : String) :
    Option String :=
  match attrs.find? (fun kv => kv.1 = key) with
  | Option.some kv => Option.some kv.2
  | Option.none => Option.none

/-- `to<size_t>`: parse a decimal numeral. -/
def parseNatStr (s : String) : Option Nat :=
  let cs := s.toList
  if cs.isEmpty then Option.none
  else if cs.all (fun c => c.isDigit) then
    Option.some (cs.foldl (fun n c => n * 10 + (c.toNat - 48)) 0)
  else Option.none

/-- `to<base>`: parse a positional-base spec such as one written
`[10,8,8]` (spec §3 attribute examples).  Modelled from the spec; only
parse success matters to `value_index::make`, since the base tunes coder
layout (spec §4.1), which the value-level coder model drops. -/
def parseBaseStr (s : String) : Option (List Nat) :=
  if s.startsWith ("[") ∧ s.endsWith ("]") then
    let inner := (s.drop 1).dropRight 1
    let pieces := inner.splitOn (",")
    let parsed := pieces.map parseNatStr
    if parsed.all (fun p => p.isSome) then
      Option.some (parsed.map (fun p => p.getD 0))
    else Option.none
  else Option.none

/-- `parse_base(t)`: the parsed `base` attribute, or the default
`base::uniform<64>(10)` when absent. -/
def parseBase (attrs : List (String × String)) : Option (List Nat) :=
  match extractAttribute attrs ("base") with
  | Option.some a => parseBaseStr a
  | Option.none => Option.some (List.replicate 20 10)

/-- A fresh wrapper around a scalar subclass state. -/
def freshVI (s : ScalarSub) : ValueIndex := ⟨[], [], SubIdx.scalar s⟩

/-- `value_index::make(const type& t)`: the factory visitor.  `none`,
`pattern`, `enumeration`, `map` and `record` yield no index; arithmetic
types fail when a present `base` attribute does not parse; `max_length`
(strings) and `max_size` (vectors and sets) fail likewise and default to
1024. -/
def make (t : Ty) : Option ValueIndex :=
  match t with
  | Ty.noneT => Option.none
  | Ty.booleanT =>
      Option.some (freshVI (ScalarSub.arith Binner.identity
        BitmapIndex.empty))
  | Ty.integerT attrs =>
      match parseBase attrs with
      | Option.none => Option.none
      | Option.some _ =>
          Option.some (freshVI (ScalarSub.arith Binner.identity
            BitmapIndex.empty))
  | Ty.countT attrs =>
      match parseBase attrs with
      | Option.none => Option.none
      | Option.some _ =>
          Option.some (freshVI (ScalarSub.arith Binner.identity
            BitmapIndex.empty))
  | Ty.realT attrs =>
      match parseBase attrs with
      | Option.none => Option.none
      | Option.some _ =>
          Option.some (freshVI (ScalarSub.arith Binner.identity
            BitmapIndex.empty))
  | Ty.timespanT attrs =>
      match parseBase attrs with
      | Option.none => Option.none
      | Option.some _ =>
          Option.some (freshVI (ScalarSub.arith (Binner.decimal 9)
            BitmapIndex.empty))
  | Ty.timestampT attrs =>
      match parseBase attrs with
      | Option.none => Option.none
      | Option.some _ =>
          Option.some (freshVI (ScalarSub.arith (Binner.decimal 9)
            BitmapIndex.empty))
  | Ty.stringT attrs =>
      match extractAttribute attrs ("max_length") with
      | Option.some a =>
          match parseNatStr a with
          | Option.some x =>
              Option.some (freshVI (ScalarSub.strI x BitmapIndex.empty []))
          | Option.none => Option.none
      | Option.none =>
          Option.some (freshVI (ScalarSub.strI 1024 BitmapIndex.empty []))
  | Ty.patternT => Option.none
  | Ty.addrT => Option.some (freshVI (ScalarSub.addrI AddrIdx.empty))
  | Ty.subnetT =>
      Option.some (freshVI (ScalarSub.subnetI ⟨[], [], AddrIdx.empty⟩
        BitmapIndex.empty))
  | Ty.portT =>
      Option.some (freshVI (ScalarSub.portI BitmapIndex.empty
        BitmapIndex.empty))
  | Ty.enumerationT => Option.none
  | Ty.vectorT elem attrs =>
      match extractAttribute attrs ("max_size") with
      | Option.some a =>
          match parseNatStr a with
          | Option.some x =>
              Option.some ⟨[], [], SubIdx.seqI elem x BitmapIndex.empty []⟩
          | Option.none => Option.none
      | Option.none =>
          Option.some ⟨[], [], SubIdx.seqI elem 1024 BitmapIndex.empty []⟩
  | Ty.setT elem attrs =>
      match extractAttribute attrs ("max_size") with
      | Option.some a =>
          match parseNatStr a with
          | Option.some x =>
              Option.some ⟨[], [], SubIdx.seqI elem x BitmapIndex.empty []⟩
          | Option.none => Option.none
      | Option.none =>
          Option.some ⟨[], [], SubIdx.seqI elem 1024 BitmapIndex.empty []⟩
  | Ty.mapT => Option.none
  | Ty.recordT => Option.none

/-- The `max_size_` of a sequence index (for stating the factory-default
claims). -/
def seqMaxSizeOf (vi : ValueIndex) : Option Nat :=
  match vi.sub with
  | SubIdx.seqI _ maxSize _ _ => Option.some maxSize
  | _ => Option.none

/-! ## The query scheduler (`system/index.cpp`)

The `has_worker` lookup handler and the continuation handler, as pure
functions of the scheduler state and the message.  The meta-index result
enters as the `candidates` argument and `uuid::random()` as the `freshId`
argument.  Worker and LRU-cache bookkeeping (`next_worker`,
`get_or_add`, the `unbecome` scope guard) have no bearing on the claims
and are not tracked; the dispatched partition list stands for the
`query_map` handed to the worker. -/

abbrev Uuid := Nat

/-- `uuid::nil()`. -/
def nilUuid : Uuid := 0

abbrev Expr := Nat

/-- `index_state::lookup_state`. -/
structure LookupState where
  expr : Expr
  partitions : List Uuid
deriving DecidableEq

/-- The scheduler state the handlers consult: `taste_partitions`, the ids
resident in `lru_partitions`, and the `pending` table. -/
structure IndexState where
  tastePartitions : Nat
  cached : List Uuid
  pending : List (Uuid × LookupState)
deriving DecidableEq

/-- `std::partition` with the is-cached predicate: cached candidates
first. -/
def preferCached (cached : List Uuid) (xs : List Uuid) : List Uuid :=
  xs.filter (fun p => cached.contains p) ++
    xs.filter (fun p => !cached.contains p)

/-- The `(query_id, hits, scheduled)` reply of the lookup handler. -/
structure LookupReply where
  queryId : Uuid
  hits : Nat
  scheduled : Nat
deriving DecidableEq

/-- The observable outcome of the lookup handler: the reply, the
partitions dispatched to a worker, and the new `pending` table. -/
structure LookupOutcome where
  reply : Except Ec LookupReply
  dispatched : List Uuid
  pending : List (Uuid × LookupState)

/-- The `has_worker` lookup handler (`[=](expression& expr)`): anonymous
senders get `invalid_argument`; an empty candidate set returns
`(nil, 0, 0)` without dispatching; a candidate set within
`taste_partitions` is dispatched whole with a nil query id; otherwise the
cached-first head of the candidates is dispatched, the tail is stored
under a fresh query id, and `scheduled = taste_partitions`. -/
def handleLookup (st : IndexState) (anonymous : Bool) (expr : Expr)
    (candidates : List Uuid) (freshId : Uuid) : LookupOutcome :=
  if anonymous then ⟨Except.error Ec.invalidArgument, [], st.pending⟩
  else if candidates.isEmpty then
    ⟨Except.ok ⟨nilUuid, 0, 0⟩, [], st.pending⟩
  else
    let hits := candidates.length
    if hits ≤ st.tastePartitions then
      ⟨Except.ok ⟨nilUuid, hits, hits⟩, candidates, st.pending⟩
    else
      let sorted := preferCached st.cached candidates
      ⟨Except.ok ⟨freshId, hits, st.tastePartitions⟩,
       sorted.take st.tastePartitions,
       st.pending ++ [(freshId, ⟨expr, sorted.drop st.tastePartitions⟩)]⟩

/-- `pending.erase(query_id)` on the association-list table. -/
def erasePending (pending : List (Uuid × LookupState)) (q : Uuid) :
    List (Uuid × LookupState) :=
  pending.filter (fun kv => kv.1 ≠ q)

/-- `pending.find(query_id)`. -/
def findPending (pending : List (Uuid × LookupState)) (q : Uuid) :
    Option (Uuid × LookupState) :=
  pending.find? (fun kv => kv.1 = q)

/-- Replace the entry of `q`. -/
def updatePending (pending : List (Uuid × LookupState)) (q : Uuid)
    (ls : LookupState) : List (Uuid × LookupState) :=
  pending.map (fun kv => if kv.1 = q then (q, ls) else kv)

/-- The observable outcome of the continuation handler.  The handler
returns `void`: `reply` is the error delivered to the caller, if any
(always `Option.none` in the source); `warnedUnknown` records the
`VAST_WARNING` log for an unknown query id. -/
structure ContOutcome where
  reply : Option Ec
  warnedUnknown : Bool
  dispatched : List Uuid
  pending : List (Uuid × LookupState)
deriving DecidableEq

/-- The continuation handler
(`[=](const uuid& query_id, size_t num_partitions)`): `num == 0` drops the
pending entry (cancel); an anonymous sender is ignored; an unknown query
id is ignored with a warning; otherwise up to `num` partitions
(cached-first) are dispatched and the entry is erased exactly when the
candidate list is drained. -/
def handleContinue (st : IndexState) (anonymous : Bool) (queryId : Uuid)
    (num : Nat) : ContOutcome :=
  if num = 0 then
    ⟨Option.none, false, [], erasePending st.pending queryId⟩
  else if anonymous then ⟨Option.none, false, [], st.pending⟩
  else
    match findPending st.pending queryId with
    | Option.none => ⟨Option.none, true, [], st.pending⟩
    | Option.some kv =>
        let cands := kv.2.partitions
        let sorted := preferCached st.cached cands
        let k := min num (List.length cands)
        let dispatched := sorted.take k
        if List.length cands ≤ num then
          ⟨Option.none, false, dispatched, erasePending st.pending queryId⟩
        else
          ⟨Option.none, false, dispatched,
           updatePending st.pending queryId ⟨kv.2.expr, sorted.drop k⟩⟩

end Vast

namespace Vast

/-! ## Segments (`segment.cc`)

A segment owns a `base` event id, a count `n` and an ordered chunk list; a
chunk holds its (decompressed) event payloads, so `elements()` is the
payload count.  The chunk serialization machinery (`chunk::writer` /
`chunk::reader`) is not in the provided sources and is modelled from the
spec (§4.5) as sequential access to the payload list.  An event is
`(id, name, timestamp, values)`; the payload stores name, timestamp and
values, the id is reassigned by the reader's position counter. -/

structure EventV where
  idE : Nat
  name : Nat
  ts : Nat
  vals : Nat
deriving DecidableEq

structure ChunkV where
  events : List (Nat × Nat × Nat)
deriving DecidableEq

/-- `chunk::elements()`. -/
def ChunkV.elements (c : ChunkV) : Nat := List.length c.events

structure Segment where
  base : Nat
  n : Nat
  chunks : List ChunkV
deriving DecidableEq

/-- `segment::contains(eid)`: `base_ <= eid && eid < base_ + n_`. -/
def Segment.contains (s : Segment) (eid : Nat) : Bool :=
  decide (s.base ≤ eid ∧ eid < s.base + s.n)

/-- `segment::reader` state: current chunk, events consumed from it, the
running id counter `id_`, and whether `reader_` is non-null. -/
structure SegReader where
  chunkIdx : Nat
  consumed : Nat
  idCtr : Nat
  hasReader : Bool
deriving DecidableEq

/-- The reader constructor: `id_ = base_`; `reader_` is created iff the
segment has chunks. -/
def SegReader.init (s : Segment) : SegReader :=
  ⟨0, 0, s.base, decide (s.chunks ≠ [])⟩

/-- `reader_->available()`: events remaining in the current chunk. -/
def segAvailable (s : Segment) (r : SegReader) : Nat :=
  (s.chunks.getD r.chunkIdx ⟨[]⟩).elements - r.consumed

/-- `segment::reader::load(e)`: consume one payload; the event takes the
id counter when it is positive, and the counter advances only then. -/
def segLoadOne (s : Segment) (r : SegReader) : SegReader × EventV :=
  let c := s.chunks.getD r.chunkIdx ⟨[]⟩
  let p := c.events.getD r.consumed (0, 0, 0)
  let ev : EventV :=
    ⟨if r.idCtr > 0 then r.idCtr else 0, p.1, p.2.1, p.2.2⟩
  ({ r with
      consumed := r.consumed + 1,
      idCtr := if r.idCtr > 0 then r.idCtr + 1 else r.idCtr }, ev)

/-- The chunk-advancing body of `segment::reader::read(e)`: fail without a
reader; at the end of a chunk move to the next one (failing after the
last); otherwise load one event.  `count` bounds the chunk advances (the
caller supplies the number of chunks left). -/
def segReadAux (s : Segment) (count : Nat) (r : SegReader) :
    Bool × SegReader × Option EventV :=
  if !r.hasReader then (false, r, Option.none)
  else if segAvailable s r = 0 then
    match count with
    | 0 => (false, r, Option.none)
    | c + 1 =>
        if r.chunkIdx + 1 < List.length s.chunks then
          segReadAux s c { r with chunkIdx := r.chunkIdx + 1, consumed := 0 }
        else (false, r, Option.none)
  else
    match segLoadOne s r with
    | (r2, ev) => (true, r2, Option.some ev)

/-- `segment::reader::read(e)`. -/
def segRead (s : Segment) (r : SegReader) :
    Bool × SegReader × Option EventV :=
  segReadAux s (List.length s.chunks - r.chunkIdx) r

/-- The rewind walk of `segment::reader::seek`: starting over from the
first chunk, advance whole chunks while the target id lies beyond them;
returns the chunk index and the id counter reached. -/
def seekRewindLoop (s : Segment) (idTarget : Nat) (count : Nat) (i : Nat)
    (idCtr : Nat) : Nat × Nat :=
  match count with
  | 0 => (i, idCtr)
  | c + 1 =>
      let elems := (s.chunks.getD i ⟨[]⟩).elements
      if idCtr + elems > idTarget then (i, idCtr)
      else seekRewindLoop s idTarget c (i + 1) (idCtr + elems)

/-- The forward walk of `segment::reader::seek`: while the target id lies
beyond the events still available, advance to the next chunk (the first
iteration consumes the current reader's `available()`, later ones whole
chunks); `reset` records that `reader_` was re-created. -/
def seekForwardLoop (s : Segment) (idTarget : Nat) (count : Nat)
    (chunkIdx : Nat) (idCtr : Nat) (elements : Nat) (reset : Bool) :
    Nat × Nat × Bool :=
  match count with
  | 0 => (chunkIdx, idCtr, reset)
  | c + 1 =>
      if idCtr + elements < idTarget then
        seekForwardLoop s idTarget c (chunkIdx + 1) (idCtr + elements)
          ((s.chunks.getD (chunkIdx + 1) ⟨[]⟩).elements) true
      else (chunkIdx, idCtr, reset)

/-- The catch-up loop of `segment::reader::seek` (`while (id_ < id)`
consume events); `fuel` bounds the loop, amply for every reachable state
since each successful read advances the positive id counter. -/
def seekCatchup (s : Segment) (idTarget : Nat) (r : SegReader)
    (fuel : Nat) : Bool × SegReader :=
  match fuel with
  | 0 => (false, r)
  | f + 1 =>
      if r.idCtr < idTarget then
        match segRead s r with
        | (false, r2, _) => (false, r2)
        | (true, r2, _) => seekCatchup s idTarget r2 f
      else (true, r)

/-- `segment::reader::seek(id)`: fail without a reader, for a segment with
`base_ == 0`, and for ids outside `[base, base + n)`; rewind or
fast-forward to the chunk holding `id`, then consume events until the
counter reaches `id`. -/
def segSeek (s : Segment) (r0 : SegReader) (id : Nat) : Bool × SegReader :=
  if !r0.hasReader then (false, r0)
  else if s.base = 0 then (false, r0)
  else if id < s.base ∨ s.base + s.n ≤ id then (false, r0)
  else
    let r1 :=
      if id < r0.idCtr then
        match seekRewindLoop s id (List.length s.chunks) 0 s.base with
        | (i, idc) =>
            let iFixed := if i = List.length s.chunks then i - 1 else i
            (⟨iFixed, 0, idc, true⟩ : SegReader)
      else
        match seekForwardLoop s id (List.length s.chunks - r0.chunkIdx)
            r0.chunkIdx r0.idCtr (segAvailable s r0) false with
        | (i, idc, reset) =>
            if reset then (⟨i, 0, idc, true⟩ : SegReader)
            else { r0 with idCtr := idc }
    seekCatchup s id r1 (id + 1)

/-- `segment::load(id)`: seek to `id` with a fresh reader, then read one
event. -/
def segLoad (s : Segment) (id : Nat) : Option EventV :=
  match segSeek s (SegReader.init s) id with
  | (false, _) => Option.none
  | (true, r1) =>
      match segRead s r1 with
      | (false, _, _) => Option.none
      | (true, _, ev) => ev

/-- Modelled from the spec: building and flushing a segment that contains
the single event `e` (the builder and base assignment live outside the
provided sources).  The segment covers the id interval `[e.id, e.id + 1)`
(spec §3 invariants, §4.5) and one chunk holds the event's payload. -/
def segmentOfEvent (e : EventV) : Segment :=
  ⟨e.idE, 1, [⟨[(e.name, e.ts, e.vals)]⟩]⟩

/-! ## `segment::writer::store`

The chunk writer is modelled from the spec (§4.5) as an append-only
record buffer whose individual writes may fail; a failed write appends
nothing.  `store` sequences the name and timestamp writes with `&&` and
evaluates the value-vector write as a separate statement whose result
does not reach `success`. -/

inductive WriteField where
  | nameF (v : Nat)
  | tsF (v : Nat)
  | valsF (v : Nat)
deriving DecidableEq

structure ChunkWriter where
  buf : List WriteField
deriving DecidableEq

/-- One `chunk::writer::write` call with outcome `ok`. -/
def chunkWrite (ok : Bool) (w : ChunkWriter) (f : WriteField) :
    Bool × ChunkWriter :=
  if ok then (true, ⟨w.buf ++ [f]⟩) else (false, w)

/-- `segment::writer::store(e)`: the name and timestamp writes feed
`success` through `&&` (the timestamp write is skipped when the name
write fails); the value-vector write always runs but its result is
dropped. -/
def writerStore (e : EventV) (okName okTs okVals : Bool)
    (w : ChunkWriter) : Bool × ChunkWriter :=
  let p1 := chunkWrite okName w (WriteField.nameF e.name)
  let p2 :=
    if p1.1 then chunkWrite okTs p1.2 (WriteField.tsF e.ts)
    else (false, p1.2)
  let success := p1.1 && p2.1
  let p3 := chunkWrite okVals p2.2 (WriteField.valsF e.vals)
  (success, p3.2)

/-- The buffer records of a completely stored event. -/
def storedRecords (e : EventV) : List WriteField :=
  [WriteField.nameF e.name, WriteField.tsF e.ts, WriteField.valsF e.vals]

end Vast

namespace Vast

theorem length_append_ne {α : Type} (a b c : List α)
    (h : List.length b ≠ List.length c) : a ++ b ≠ a ++ c := by
  intro he
  apply h
  have := congrArg List.length he
  simp only [List.length_append] at this
  omega

/-- Claim C8: `segment::writer::store` returns false when the event-name
write or the timestamp write fails (and the event record is then not
fully appended), but its returned success does not depend on the
value-vector write: when only the value-vector write fails, `store` still
reports success while the chunk buffer lacks the value record. -/
theorem claim_C8 (e : EventV) (okName okTs okVals : Bool) (w : ChunkWriter) :
    ((okName = false ∨ okTs = false) →
      (writerStore e okName okTs okVals w).1 = false ∧
      (writerStore e okName okTs okVals w).2.buf ≠ w.buf ++ storedRecords e)
    ∧ ((writerStore e okName okTs true w).1 =
        (writerStore e okName okTs false w).1)
    ∧ (okName = true → okTs = true → okVals = false →
        (writerStore e okName okTs okVals w).1 = true ∧
        (writerStore e okName okTs okVals w).2.buf =
          w.buf ++ [WriteField.nameF e.name, WriteField.tsF e.ts] ∧
        (writerStore e okName okTs okVals w).2.buf ≠
          w.buf ++ storedRecords e) := by
  cases okName <;> cases okTs <;> cases okVals <;>
    simp only [writerStore, chunkWrite, storedRecords, if_true, if_false,
      Bool.false_and, Bool.true_and, Bool.and_false, Bool.and_true,
      ite_true, ite_false] <;>
    refine ⟨?_, ?_⟩ <;>
    try simp
  all_goals
    first
    | (intro h; exact absurd h (by simp))
    | (refine fun _ _ _ => ⟨rfl, ?_⟩) <;>
      first
      | exact length_append_ne _ _ _ (by simp)
      | (intro _; exact length_append_ne _ _ _ (by simp) (by assumption))

/-- Witness for C8 at a concrete event, writer and outcome triple. -/
theorem claim_C8_witness :
    (writerStore ⟨0, 1, 2, 3⟩ true true false ⟨[]⟩).1 = true ∧
    (writerStore ⟨0, 1, 2, 3⟩ true true false ⟨[]⟩).2.buf ≠
      [] ++ storedRecords ⟨0, 1, 2, 3⟩ := by
  have h := claim_C8 ⟨0, 1, 2, 3⟩ true true false ⟨[]⟩
  exact ⟨(h.2.2 rfl rfl rfl).1, (h.2.2 rfl rfl rfl).2.2⟩

/-- Claim C10: for every segment whose base event id is 0,
`segment::reader::seek` returns false for every id (leaving the reader
unchanged), and therefore `segment::load` returns no event. -/
theorem claim_C10 (s : Segment) (r : SegReader) (id : Nat)
    (hbase : s.base = 0) :
    segSeek s r id = (false, r) ∧ segLoad s id = Option.none := by
  have hseek : ∀ rr : SegReader, segSeek s rr id = (false, rr) := by
    intro rr
    unfold segSeek
    cases hr : rr.hasReader <;> simp [hr, hbase]
  refine ⟨hseek r, ?_⟩
  unfold segLoad
  rw [hseek (SegReader.init s)]

/-- Witness for C10: a base-0 segment that does contain the event with
id 0 still loads nothing. -/
theorem claim_C10_witness :
    (Segment.contains ⟨0, 1, [⟨[(1, 2, 3)]⟩]⟩ 0 = true) ∧
    segLoad ⟨0, 1, [⟨[(1, 2, 3)]⟩]⟩ 0 = Option.none := by
  refine ⟨by decide, ?_⟩
  exact (claim_C10 ⟨0, 1, [⟨[(1, 2, 3)]⟩]⟩
    (SegReader.init ⟨0, 1, [⟨[(1, 2, 3)]⟩]⟩) 0 rfl).2

/-- Counterexample for C3: the round-trip fails at the event with id 0,
because `seek` rejects every segment whose base is 0;
`segment_build([e]).flush().load(e.id)` returns nothing rather than `e`. -/
theorem claim_C3_counterexample :
    ¬ (segLoad (segmentOfEvent ⟨0, 1, 2, 3⟩) 0 =
        Option.some ⟨0, 1, 2, 3⟩) := by
  have h : segLoad (segmentOfEvent ⟨0, 1, 2, 3⟩) 0 = Option.none := by
    decide
  rw [h]
  simp

/-- Claim C3 (amended): for every event `e` with a nonzero id, building a
segment containing only `e`, flushing it, and calling `load(e.id)` yields
an event equal to `e`; `seek` finds the chunk whose half-open interval
contains `e.id` and the reader re-labels the stored payload with the id
counter. -/
theorem claim_C3_amended (e : EventV) (hid : e.idE ≠ 0) :
    segLoad (segmentOfEvent e) e.idE = Option.some e := by
  obtain ⟨idE, name, ts, vals⟩ := e
  simp only at hid
  have hpos : 0 < idE := Nat.pos_of_ne_zero hid
  have hinit : SegReader.init (segmentOfEvent ⟨idE, name, ts, vals⟩) =
      ⟨0, 0, idE, true⟩ := by
    simp [SegReader.init, segmentOfEvent]
  have havail : segAvailable ⟨idE, 1, [⟨[(name, ts, vals)]⟩]⟩
      ⟨0, 0, idE, true⟩ = 1 := by
    simp [segAvailable, ChunkV.elements]
  have hfwd : seekForwardLoop ⟨idE, 1, [⟨[(name, ts, vals)]⟩]⟩ idE 1 0
      idE 1 false = (0, idE, false) := by
    unfold seekForwardLoop
    rw [if_neg (by omega : ¬(idE + 1 < idE))]
  have hcatch : seekCatchup (⟨idE, 1, [⟨[(name, ts, vals)]⟩]⟩ : Segment) idE
      ⟨0, 0, idE, true⟩ (idE + 1) = (true, ⟨0, 0, idE, true⟩) := by
    unfold seekCatchup
    simp [show ¬(idE < idE) by omega]
  have hseek : segSeek (segmentOfEvent ⟨idE, name, ts, vals⟩)
      (SegReader.init (segmentOfEvent ⟨idE, name, ts, vals⟩)) idE =
      (true, ⟨0, 0, idE, true⟩) := by
    rw [hinit]
    unfold segSeek
    simp only [segmentOfEvent, Bool.not_true, Bool.false_eq_true, if_false,
      hid, lt_irrefl]
    rw [if_neg (by simp : ¬(False ∨ idE + 1 ≤ idE)), havail]
    simp only [List.length_cons, List.length_nil, Nat.sub_zero]
    rw [hfwd]
    simpa using hcatch
  have hread : segRead (segmentOfEvent ⟨idE, name, ts, vals⟩)
      ⟨0, 0, idE, true⟩ =
      (true, ⟨0, 1, idE + 1, true⟩, Option.some ⟨idE, name, ts, vals⟩) := by
    unfold segRead segReadAux
    simp [segAvailable, ChunkV.elements, segmentOfEvent, segLoadOne, hpos]
  unfold segLoad
  simp only [hseek, hread]

/-- Witness for C3 (amended) at a concrete nonzero-id event. -/
theorem claim_C3_witness :
    segLoad (segmentOfEvent ⟨5, 1, 2, 3⟩) 5 = Option.some ⟨5, 1, 2, 3⟩ :=
  claim_C3_amended ⟨5, 1, 2, 3⟩ (by decide)

end Vast

namespace Vast

theorem length_preferCached (cached xs : List Uuid) :
    List.length (preferCached cached xs) = List.length xs := by
  unfold preferCached
  rw [List.length_append]
  exact (List.length_eq_length_filter_add (fun p => cached.contains p)).symm

/-- Claim C4: with an empty meta-index candidate set the lookup handler
replies `(nil_uuid, 0, 0)` and dispatches nothing; with a non-empty set it
replies a fresh non-nil query id exactly when the candidates outnumber
`taste_partitions`, and otherwise schedules all candidates at once with
`scheduled = hits` and a nil query id. -/
theorem claim_C4 (st : IndexState) (expr : Expr) (candidates : List Uuid)
    (freshId : Uuid) (hfresh : freshId ≠ nilUuid) :
    (candidates = [] →
      handleLookup st false expr candidates freshId =
        ⟨Except.ok ⟨nilUuid, 0, 0⟩, [], st.pending⟩)
    ∧ (candidates ≠ [] → List.length candidates ≤ st.tastePartitions →
        (handleLookup st false expr candidates freshId).reply =
          Except.ok ⟨nilUuid, List.length candidates,
            List.length candidates⟩ ∧
        (handleLookup st false expr candidates freshId).dispatched =
          candidates)
    ∧ (candidates ≠ [] → st.tastePartitions < List.length candidates →
        (handleLookup st false expr candidates freshId).reply =
          Except.ok ⟨freshId, List.length candidates,
            st.tastePartitions⟩ ∧
        freshId ≠ nilUuid) := by
  refine ⟨?_, ?_, ?_⟩
  · intro he
    subst he
    rfl
  · intro hne hle
    unfold handleLookup
    simp [List.isEmpty_iff, hne, hle]
  · intro hne hgt
    unfold handleLookup
    simp [List.isEmpty_iff, hne, show ¬(List.length candidates ≤
      st.tastePartitions) by omega, hfresh]

/-- Witness for C4 at a concrete scheduler state and candidate sets. -/
theorem claim_C4_witness :
    handleLookup ⟨2, [], []⟩ false 0 [] 9 =
      ⟨Except.ok ⟨nilUuid, 0, 0⟩, [], []⟩ ∧
    (handleLookup ⟨2, [], []⟩ false 0 [4, 5, 6] 9).reply =
      Except.ok ⟨9, 3, 2⟩ := by
  have h1 := (claim_C4 ⟨2, [], []⟩ 0 [] 9 (by decide)).1 rfl
  have h2 := ((claim_C4 ⟨2, [], []⟩ 0 [4, 5, 6] 9 (by decide)).2.2
    (by decide) (by decide)).1
  exact ⟨h1, h2⟩

/-- Counterexample for C6: a continuation with a query id absent from the
pending table delivers no `invalid_argument` error to the caller; the
handler returns void and merely logs a warning. -/
theorem claim_C6_counterexample :
    ¬ ((handleContinue ⟨4, [], []⟩ false 7 5).reply =
        Option.some Ec.invalidArgument) := by
  decide

/-- Claim C6 (amended): `continue(query_id, 0)` cancels by dropping the
pending entry and dispatches nothing; a continuation with an unknown
query id is ignored with a warning (no error reaches the caller); for a
known query id, `min(num, |candidates|)` partitions are dispatched and the
entry is erased exactly when the candidate list is drained
(`num >= |candidates|`). -/
theorem claim_C6_amended (st : IndexState) (anonymous : Bool)
    (queryId : Uuid) (num : Nat) :
    (num = 0 →
      handleContinue st anonymous queryId num =
        ⟨Option.none, false, [], erasePending st.pending queryId⟩)
    ∧ (num ≠ 0 → anonymous = false →
        findPending st.pending queryId = Option.none →
        handleContinue st anonymous queryId num =
          ⟨Option.none, true, [], st.pending⟩)
    ∧ (∀ kv, num ≠ 0 → anonymous = false →
        findPending st.pending queryId = Option.some kv →
        List.length (handleContinue st anonymous queryId num).dispatched =
          min num (List.length kv.2.partitions) ∧
        (handleContinue st anonymous queryId num).reply = Option.none ∧
        (List.length kv.2.partitions ≤ num →
          (handleContinue st anonymous queryId num).pending =
            erasePending st.pending queryId) ∧
        (num < List.length kv.2.partitions →
          (handleContinue st anonymous queryId num).pending =
            updatePending st.pending queryId
              ⟨kv.2.expr, (preferCached st.cached kv.2.partitions).drop
                (min num (List.length kv.2.partitions))⟩)) := by
  refine ⟨?_, ?_, ?_⟩
  · intro h0
    subst h0
    rfl
  · intro hnum hanon hfind
    unfold handleContinue
    simp [hnum, hanon, hfind]
  · intro kv hnum hanon hfind
    subst hanon
    unfold handleContinue
    rw [if_neg hnum, if_neg (by simp), hfind]
    dsimp only
    rcases Nat.lt_or_ge num (List.length kv.2.partitions) with hlt | hge
    · rw [if_neg (by omega : ¬(List.length kv.2.partitions ≤ num))]
      refine ⟨?_, rfl, ?_, ?_⟩
      · simp only [List.length_take, length_preferCached]
        omega
      · intro hle
        omega
      · intro _
        rfl
    · rw [if_pos hge]
      refine ⟨?_, rfl, ?_, ?_⟩
      · simp only [List.length_take, length_preferCached]
        omega
      · intro _
        rfl
      · intro hlt2
        omega

/-- Witness for C6 (amended): cancel, unknown-id and drained cases at a
concrete pending table. -/
theorem claim_C6_witness :
    handleContinue ⟨4, [], [(7, ⟨0, [1, 2]⟩)]⟩ false 7 0 =
      ⟨Option.none, false, [],
        erasePending [(7, ⟨0, [1, 2]⟩)] 7⟩ ∧
    handleContinue ⟨4, [], [(7, ⟨0, [1, 2]⟩)]⟩ false 8 5 =
      ⟨Option.none, true, [], [(7, ⟨0, [1, 2]⟩)]⟩ ∧
    List.length (handleContinue ⟨4, [], [(7, ⟨0, [1, 2]⟩)]⟩
      false 7 5).dispatched = min 5 2 := by
  refine ⟨?_, ?_, ?_⟩
  · exact (claim_C6_amended ⟨4, [], [(7, ⟨0, [1, 2]⟩)]⟩ false 7 0).1 rfl
  · exact (claim_C6_amended ⟨4, [], [(7, ⟨0, [1, 2]⟩)]⟩ false 8 5).2.1
      (by decide) rfl (by decide)
  · exact (((claim_C6_amended ⟨4, [], [(7, ⟨0, [1, 2]⟩)]⟩ false 7 5).2.2
      (7, ⟨0, [1, 2]⟩) (by decide) rfl (by decide))).1

/-- Counterexample for C9: `value_index::make` on a vector type without a
`max_size` attribute builds a sequence index with `max_size` 1024, not
128. -/
theorem claim_C9_counterexample :
    ¬ (Option.map seqMaxSizeOf (make (Ty.vectorT ScalarTy.countS [])) =
        Option.some (Option.some 128)) := by
  decide

/-- Claim C9 (amended): for every vector or set type without a `max_size`
attribute, the sequence index built by `value_index::make` uses a
`max_size` default of 1024 element positions (128 is only the default
argument of the `sequence_index` constructor, which `make` never
relies on). -/
theorem claim_C9_amended (elem : ScalarTy)
    (attrs : List (String × String))
    (h : extractAttribute attrs ("max_size") = Option.none) :
    make (Ty.vectorT elem attrs) =
      Option.some ⟨[], [], SubIdx.seqI elem 1024 BitmapIndex.empty []⟩ ∧
    make (Ty.setT elem attrs) =
      Option.some ⟨[], [], SubIdx.seqI elem 1024 BitmapIndex.empty []⟩ := by
  constructor
  · unfold make
    dsimp only
    rw [h]
  · unfold make
    dsimp only
    rw [h]

/-- Witness for C9 (amended) at a concrete attribute-free vector type. -/
theorem claim_C9_witness :
    make (Ty.vectorT ScalarTy.countS []) =
      Option.some ⟨[], [], SubIdx.seqI ScalarTy.countS 1024
        BitmapIndex.empty []⟩ :=
  (claim_C9_amended ScalarTy.countS [] rfl).1

end Vast

namespace Vast

theorem wrapResult_bit (r2 nb mask : Ids) (i : Nat)
    (h : nb.testBit i = true) :
    ((r2.sub nb).and mask).testBit i = false := by
  rw [Ids.testBit_and, Ids.testBit_sub, h]
  simp

/-- Claim C1: for every value index, a lookup with any operator on a
non-nil value excludes every position recorded in `none_` (the wrapper
computes `(subclass_result - none_) & mask_`), and the `== nil` /
`!= nil` lookups are answered directly from `none_` intersected with
`mask_`. -/
theorem claim_C1 (vi : ValueIndex) (op : RelOp) (x : Data) (r : Ids)
    (i : Nat) :
    (x ≠ Data.none → ValueIndex.lookup vi op x = Except.ok r →
      vi.none_.testBit i = true → r.testBit i = false)
    ∧ ValueIndex.lookup vi RelOp.equal Data.none =
        Except.ok (vi.none_.and vi.mask_)
    ∧ ValueIndex.lookup vi RelOp.notEqual Data.none =
        Except.ok (vi.none_.flip.and vi.mask_) := by
  refine ⟨?_, rfl, rfl⟩
  intro hx hok hnone
  have hshape : ValueIndex.lookup vi op x =
      (match subLookupImpl vi op x with
       | Except.error e => Except.error e
       | Except.ok r2 => Except.ok ((r2.sub vi.none_).and vi.mask_)) := by
    unfold ValueIndex.lookup
    cases x
    · exact absurd rfl hx
    all_goals rfl
  rw [hshape] at hok
  cases hsub : subLookupImpl vi op x
  case error => rw [hsub] at hok; exact absurd hok (by simp)
  case ok r2 =>
    rw [hsub] at hok
    simp only [Except.ok.injEq] at hok
    rw [← hok]
    exact wrapResult_bit r2 vi.none_ vi.mask_ i hnone

/-- Witness for C1: a concrete string index whose `none_` bitmap has bit 1
set; the `=` lookup result excludes position 1. -/
theorem claim_C1_witness :
    ValueIndex.lookup ⟨[true, true], [false, true],
        SubIdx.scalar (ScalarSub.strI 1024 ⟨[Option.some 1]⟩
          [⟨[Option.some 97]⟩])⟩ RelOp.equal (Data.str [97]) =
      Except.ok [true, false] ∧
    Ids.testBit [true, false] 1 = false := by
  have h := (claim_C1 ⟨[true, true], [false, true],
      SubIdx.scalar (ScalarSub.strI 1024 ⟨[Option.some 1]⟩
        [⟨[Option.some 97]⟩])⟩ RelOp.equal (Data.str [97])
      [true, false] 1).1 (fun hcon => Data.noConfusion hcon)
  have hok : ValueIndex.lookup ⟨[true, true], [false, true],
      SubIdx.scalar (ScalarSub.strI 1024 ⟨[Option.some 1]⟩
        [⟨[Option.some 97]⟩])⟩ RelOp.equal (Data.str [97]) =
      Except.ok [true, false] := by rfl
  exact ⟨hok, h hok (by decide)⟩

/-! ## Well-typedness and well-formedness for appends -/

/-- Does a data value fit the declared type of a scalar subclass? -/
def conformsScalar (s : ScalarSub) (x : Data) : Bool :=
  match s, x with
  | ScalarSub.arith _ _, Data.num _ => true
  | ScalarSub.strI _ _ _, Data.str _ => true
  | ScalarSub.addrI _, Data.addr _ => true
  | ScalarSub.subnetI _ _, Data.subnetV _ _ => true
  | ScalarSub.portI _ _, Data.portV _ _ => true
  | _, _ => false

/-- Does a data value fit the declared type of a subclass state? -/
def conforms (s : SubIdx) (x : Data) : Bool :=
  match s, x with
  | SubIdx.scalar sc, y => conformsScalar sc y
  | SubIdx.seqI _ _ _ _, Data.vec _ => true
  | SubIdx.seqI _ _ _ _, Data.setData _ => true
  | _, _ => false

/-- Well-formedness of a wrapper state for appends: `none_` never runs
ahead of `mask_`, and a subnet index's nested network index never runs
ahead of the wrapper (both hold in every state reachable by appends). -/
def appendWF (vi : ValueIndex) : Prop :=
  Ids.size vi.none_ ≤ Ids.size vi.mask_ ∧
  (∀ network2 length2,
    vi.sub = SubIdx.scalar (ScalarSub.subnetI network2 length2) →
    Ids.size network2.mask_ ≤ Ids.size vi.mask_)

theorem testBit_ge_size (a : Ids) (j : Nat) (h : Ids.size a ≤ j) :
    a.testBit j = false := by
  unfold Ids.testBit
  exact List.getD_eq_default _ _ h

theorem testBit_gap (a : Ids) (n : Nat) (b : Bool) (j : Nat)
    (h1 : Ids.size a ≤ j) (h2 : j < Ids.size a + n) :
    Ids.testBit ((a.appendBits false n).appendBit b) j = false := by
  unfold Ids.testBit Ids.appendBits Ids.appendBit
  rw [List.append_assoc, List.getD_eq_getElem?_getD,
      List.getElem?_append_right (by simpa using h1)]
  rw [List.getElem?_append_left (by simp; unfold Ids.size at *; omega)]
  rw [List.getElem?_replicate]
  simp [show j - List.length a < n by unfold Ids.size at *; omega]

theorem size_appendGap (a : Ids) (pos : Nat) (b : Bool)
    (h : Ids.size a ≤ pos) :
    Ids.size ((a.appendBits false (pos - Ids.size a)).appendBit b) =
      pos + 1 := by
  unfold Ids.size Ids.appendBits Ids.appendBit at *
  simp only [List.length_append, List.length_replicate, List.length_cons,
    List.length_nil]
  omega

end Vast

namespace Vast

theorem append_lt_shape (vi : ValueIndex) (x : Data) (pos : Nat)
    (hlt : pos < vi.mask_.size) :
    ValueIndex.append vi x pos = (Except.error Ec.unspecified, vi) := by
  unfold ValueIndex.append wrapAppendWith
  simp only [if_pos hlt]

theorem append_nil_shape (vi : ValueIndex) (pos : Nat)
    (hge : ¬(pos < vi.mask_.size)) :
    ValueIndex.append vi Data.none pos =
      (Except.ok (),
       ⟨(vi.mask_.appendBits false (pos - vi.mask_.size)).appendBit true,
        (vi.none_.appendBits false (pos - vi.none_.size)).appendBit true,
        vi.sub⟩) := by
  unfold ValueIndex.append wrapAppendWith
  simp only [if_neg hge]

theorem append_nonNil_ok (vi : ValueIndex) (x : Data) (pos : Nat)
    (hx : x ≠ Data.none) (hge : ¬(pos < vi.mask_.size)) (sub2 : SubIdx)
    (h : subAppendImpl vi.sub x pos = (true, sub2)) :
    ValueIndex.append vi x pos =
      (Except.ok (),
       ⟨(vi.mask_.appendBits false (pos - vi.mask_.size)).appendBit true,
        vi.none_, sub2⟩) := by
  unfold ValueIndex.append wrapAppendWith
  simp only [if_neg hge]
  cases x
  · exact absurd rfl hx
  all_goals (rw [h])

theorem append_nonNil_fail (vi : ValueIndex) (x : Data) (pos : Nat)
    (hx : x ≠ Data.none) (hge : ¬(pos < vi.mask_.size)) (sub2 : SubIdx)
    (h : subAppendImpl vi.sub x pos = (false, sub2)) :
    ValueIndex.append vi x pos =
      (Except.error Ec.unspecified, ⟨vi.mask_, vi.none_, sub2⟩) := by
  unfold ValueIndex.append wrapAppendWith
  simp only [if_neg hge]
  cases x
  · exact absurd rfl hx
  all_goals (rw [h])

theorem subAppendImpl_ok (s : SubIdx) (x : Data) (pos : Nat)
    (hc : conforms s x = true)
    (hwf : ∀ network2 length2,
      s = SubIdx.scalar (ScalarSub.subnetI network2 length2) →
      Ids.size network2.mask_ ≤ pos) :
    (subAppendImpl s x pos).1 = true := by
  cases s with
  | scalar sc =>
      cases sc <;> cases x <;>
        simp [conforms, conformsScalar] at hc
      · rfl
      · rfl
      · rfl
      · simp only [subAppendImpl, scalarAppendImpl, addrVIAppend,
          wrapAppendWith]
        rw [if_neg (by have hle := hwf _ _ rfl; omega)]
        rfl
      · rfl
  | seqI vt ms sz els =>
      cases x <;> simp [conforms] at hc
      · rfl
      · rfl

/-- Counterexample for C7: appending at a regressing position fails with
`ec::unspecified`, not `invalid_argument` (a string index after one append
at position 0, asked to append again at position 0). -/
theorem claim_C7_counterexample :
    (ValueIndex.append
      (ValueIndex.append (freshVI (ScalarSub.strI 1024 ⟨[]⟩ []))
        (Data.str [97]) 0).2 (Data.str [98]) 0).1 =
      Except.error Ec.unspecified ∧
    Ec.unspecified ≠ Ec.invalidArgument := by
  constructor
  · rfl
  · decide

/-- Claim C7 (amended): appending at `pos < offset()` fails with an
`ec::unspecified` error (the source does not use `invalid_argument` here)
and leaves the index unchanged; appending a nil or type-conforming value
at `pos ≥ offset()` succeeds, the positions strictly between the old
offset and `pos` hold no value (they are recorded in neither `mask_` nor
`none_`, hence are implicitly nil and excluded from every lookup), and
`offset()` becomes `pos + 1`; across every append call `offset()` is
non-decreasing. -/
theorem claim_C7_amended (vi : ValueIndex) (x : Data) (pos : Nat)
    (hwf : appendWF vi) :
    (pos < vi.offset →
      ValueIndex.append vi x pos = (Except.error Ec.unspecified, vi))
    ∧ (vi.offset ≤ pos → (x = Data.none ∨ conforms vi.sub x = true) →
        (ValueIndex.append vi x pos).1 = Except.ok () ∧
        (ValueIndex.append vi x pos).2.offset = pos + 1 ∧
        (∀ j, vi.offset ≤ j → j < pos →
          Ids.testBit (ValueIndex.append vi x pos).2.mask_ j = false ∧
          Ids.testBit (ValueIndex.append vi x pos).2.none_ j = false))
    ∧ vi.offset ≤ (ValueIndex.append vi x pos).2.offset := by
  obtain ⟨hwf1, hwf2⟩ := hwf
  refine ⟨?_, ?_, ?_⟩
  · intro hlt
    exact append_lt_shape vi x pos hlt
  · intro hge hcx
    have hge2 : ¬(pos < vi.mask_.size) := by
      unfold VI.offset at hge
      omega
    rcases hcx with hnil | hcon
    · subst hnil
      rw [append_nil_shape vi pos hge2]
      refine ⟨rfl, ?_, ?_⟩
      · exact size_appendGap vi.mask_ pos true (by unfold VI.offset at hge; exact hge)
      · intro j hj1 hj2
        constructor
        · exact testBit_gap vi.mask_ (pos - vi.mask_.size) true j
            (by unfold VI.offset at hj1; exact hj1)
            (by unfold VI.offset Ids.size at *; omega)
        · exact testBit_gap vi.none_ (pos - vi.none_.size) true j
            (by unfold VI.offset Ids.size at *; omega)
            (by unfold VI.offset Ids.size at *; omega)
    · have hx : x ≠ Data.none := by
        intro he
        subst he
        cases hs : vi.sub with
        | scalar sc =>
            rw [hs] at hcon
            cases sc <;> simp [conforms, conformsScalar] at hcon
        | seqI a b c d =>
            rw [hs] at hcon
            simp [conforms] at hcon
      have hok : (subAppendImpl vi.sub x pos).1 = true := by
        apply subAppendImpl_ok vi.sub x pos hcon
        intro network2 length2 hs
        have hle := hwf2 network2 length2 hs
        unfold VI.offset at hge
        omega
      cases hsub : subAppendImpl vi.sub x pos with
      | mk b sub2 =>
          rw [hsub] at hok
          subst hok
          rw [append_nonNil_ok vi x pos hx hge2 sub2 hsub]
          refine ⟨rfl, ?_, ?_⟩
          · exact size_appendGap vi.mask_ pos true
              (by unfold VI.offset at hge; exact hge)
          · intro j hj1 hj2
            constructor
            · exact testBit_gap vi.mask_ (pos - vi.mask_.size) true j
                (by unfold VI.offset at hj1; exact hj1)
                (by unfold VI.offset Ids.size at *; omega)
            · exact testBit_ge_size vi.none_ j
                (by unfold VI.offset Ids.size at *; omega)
  · by_cases hlt : pos < vi.mask_.size
    · rw [append_lt_shape vi x pos hlt]
    · cases x
      · rw [append_nil_shape vi pos hlt]
        unfold VI.offset
        rw [size_appendGap vi.mask_ pos true (by omega)]
        unfold Ids.size at *
        omega
      all_goals
        (cases hsub : subAppendImpl vi.sub _ pos with
         | mk b sub2 =>
             cases b
             · rw [append_nonNil_fail vi _ pos
                 (fun hcon => Data.noConfusion hcon) hlt sub2 hsub]
               unfold VI.offset
               dsimp only
               omega
             · rw [append_nonNil_ok vi _ pos
                 (fun hcon => Data.noConfusion hcon) hlt sub2 hsub]
               unfold VI.offset
               dsimp only
               rw [size_appendGap vi.mask_ pos true (by omega)]
               unfold Ids.size at *
               omega)

/-- Witness for C7 (amended): a fresh port index, appending at position 2
then regressing to position 1. -/
theorem claim_C7_witness :
    (ValueIndex.append (freshVI (ScalarSub.portI ⟨[]⟩ ⟨[]⟩))
      (Data.portV 80 1) 2).1 = Except.ok () ∧
    (ValueIndex.append (freshVI (ScalarSub.portI ⟨[]⟩ ⟨[]⟩))
      (Data.portV 80 1) 2).2.offset = 3 ∧
    Ids.testBit (ValueIndex.append (freshVI (ScalarSub.portI ⟨[]⟩ ⟨[]⟩))
      (Data.portV 80 1) 2).2.mask_ 1 = false ∧
    ValueIndex.append
      (ValueIndex.append (freshVI (ScalarSub.portI ⟨[]⟩ ⟨[]⟩))
        (Data.portV 80 1) 2).2 (Data.portV 81 1) 1 =
      (Except.error Ec.unspecified,
       (ValueIndex.append (freshVI (ScalarSub.portI ⟨[]⟩ ⟨[]⟩))
         (Data.portV 80 1) 2).2) := by
  have hstate : (ValueIndex.append (freshVI (ScalarSub.portI ⟨[]⟩ ⟨[]⟩))
      (Data.portV 80 1) 2).2 =
      ⟨[false, false, true], [],
       SubIdx.scalar (ScalarSub.portI
         ⟨[Option.none, Option.none, Option.some 80]⟩
         ⟨[Option.none, Option.none, Option.some 1]⟩)⟩ := by rfl
  have h1 := (claim_C7_amended (freshVI (ScalarSub.portI ⟨[]⟩ ⟨[]⟩))
    (Data.portV 80 1) 2
    ⟨by decide, fun n2 l2 h => by simp [freshVI] at h⟩).2.1
    (by simp [freshVI, VI.offset, Ids.size])
    (Or.inr (by rfl))
  have h2 := (claim_C7_amended
    (ValueIndex.append (freshVI (ScalarSub.portI ⟨[]⟩ ⟨[]⟩))
      (Data.portV 80 1) 2).2 (Data.portV 81 1) 1
    (by
      rw [hstate]
      exact ⟨by decide, fun n2 l2 h => by simp at h⟩)).1
  refine ⟨h1.1, h1.2.1, (h1.2.2 1 (by simp [freshVI, VI.offset, Ids.size])
    (by omega)).1, ?_⟩
  apply h2
  rw [h1.2.1]
  omega

end Vast

namespace Vast

/-- The claim-side conjunction for the string `=` lookup: AND onto `acc`
the character-equality bitmaps for positions `j, j+1, ...` (`count` many). -/
def strEqAndChars (chars_ : List (BitmapIndex Nat)) (q : List Nat)
    (count : Nat) (j : Nat) (acc : Ids) : Ids :=
  match count with
  | 0 => acc
  | c + 1 =>
      strEqAndChars chars_ q c (j + 1)
        (acc.and ((chars_.getD j BitmapIndex.empty).lookupP
          (fun c2 => decide (c2 = q.getD j 0))))

/-- The claim-side formula for the string `=` lookup: the `length == 0`
bitmap for the empty (truncated) query, else the AND of the
`length <= |s|` bitmap with the per-position character equalities. -/
def strEqSpec (maxLength : Nat) (length_ : BitmapIndex Nat)
    (chars_ : List (BitmapIndex Nat)) (s : List Nat) : Ids :=
  let qlen := min (List.length s) maxLength
  if qlen = 0 then length_.lookupP (fun l => decide (l = 0))
  else
    strEqAndChars chars_ (s.take maxLength) qlen 0
      (length_.lookupP (fun l => decide (l ≤ qlen)))

theorem all0_and_left (a b : Ids) (h : a.all0 = true) :
    (a.and b).all0 = true := by
  unfold Ids.all0 Ids.and Ids.pointwise
  rw [List.all_eq_true]
  intro x hx
  rw [List.mem_map] at hx
  obtain ⟨i, hi, hx2⟩ := hx
  rw [← hx2]
  simp [Ids.testBit_of_all0 a h i]

theorem strEqAndChars_all0 (chars_ : List (BitmapIndex Nat)) (q : List Nat)
    (count : Nat) : ∀ (j : Nat) (acc : Ids), acc.all0 = true →
    (strEqAndChars chars_ q count j acc).all0 = true := by
  induction count with
  | zero => intro j acc h; exact h
  | succ c ih =>
      intro j acc h
      exact ih (j + 1) _ (all0_and_left _ _ h)

theorem testBit_strEqAndChars_mono (chars_ : List (BitmapIndex Nat))
    (q : List Nat) (count : Nat) : ∀ (j : Nat) (acc : Ids) (i : Nat),
    Ids.testBit acc i = false →
    Ids.testBit (strEqAndChars chars_ q count j acc) i = false := by
  induction count with
  | zero => intro j acc i h; exact h
  | succ c ih =>
      intro j acc i h
      apply ih (j + 1)
      rw [Ids.testBit_and, h]
      rfl

theorem testBit_strEqAndChars_le (chars_ : List (BitmapIndex Nat))
    (q : List Nat) (count : Nat) : ∀ (j : Nat) (acc : Ids) (i : Nat),
    Ids.testBit (strEqAndChars chars_ q count j acc) i = true →
    ∀ k, j ≤ k → k < j + count →
    Ids.testBit ((chars_.getD k BitmapIndex.empty).lookupP
      (fun c2 => decide (c2 = q.getD k 0))) i = true := by
  induction count with
  | zero =>
      intro j acc i _ k hk1 hk2
      omega
  | succ c ih =>
      intro j acc i h k hk1 hk2
      rcases Nat.eq_or_lt_of_le hk1 with he | hlt
    
      · subst he
        by_contra hb
        have hfalse : Ids.testBit (acc.and ((chars_.getD j
            BitmapIndex.empty).lookupP
            (fun c2 => decide (c2 = q.getD j 0)))) i = false := by
          rw [Ids.testBit_and]
          cases hc2 : Ids.testBit ((chars_.getD j BitmapIndex.empty).lookupP
              (fun c2 => decide (c2 = q.getD j 0))) i
          · simp
          · exact absurd hc2 hb
        rw [show strEqAndChars chars_ q (c + 1) j acc =
            strEqAndChars chars_ q c (j + 1)
              (acc.and ((chars_.getD j BitmapIndex.empty).lookupP
                (fun c2 => decide (c2 = q.getD j 0)))) from rfl,
          testBit_strEqAndChars_mono chars_ q c (j + 1) _ i hfalse] at h
        exact absurd h (by simp)
      · exact ih (j + 1) _ i h k hlt (by omega)

theorem flip_mkIds_false (n : Nat) :
    (Ids.mkIds n false).flip = Ids.mkIds n true := by
  unfold Ids.flip Ids.mkIds
  simp

theorem strEqLoop_eq_spec (chars_ : List (BitmapIndex Nat)) (q : List Nat)
    (off : Nat) (count : Nat) : ∀ (j : Nat) (acc : Ids) (i : Nat),
    Ids.testBit (strEqLoop chars_ q off false count j acc) i =
    Ids.testBit (strEqAndChars chars_ q count j acc) i := by
  induction count with
  | zero => intro j acc i; rfl
  | succ c ih =>
      intro j acc i
      unfold strEqLoop strEqAndChars
      by_cases hall : ((acc.and ((chars_.getD j BitmapIndex.empty).lookupP
          (fun c2 => decide (c2 = q.getD j 0)))).all0) = true
      · rw [if_pos hall, Ids.testBit_mkIds,
            Ids.testBit_of_all0 _ (strEqAndChars_all0 chars_ q c (j + 1) _
              hall) i]
        simp
      · rw [if_neg hall]
        exact ih (j + 1) _ i

theorem strEqLoop_ne_flip (chars_ : List (BitmapIndex Nat)) (q : List Nat)
    (off : Nat) (count : Nat) : ∀ (j : Nat) (acc : Ids),
    strEqLoop chars_ q off true count j acc =
    (strEqLoop chars_ q off false count j acc).flip := by
  induction count with
  | zero => intro j acc; rfl
  | succ c ih =>
      intro j acc
      unfold strEqLoop
      by_cases hall : ((acc.and ((chars_.getD j BitmapIndex.empty).lookupP
          (fun c2 => decide (c2 = q.getD j 0)))).all0) = true
      · rw [if_pos hall, if_pos hall, flip_mkIds_false]
      · rw [if_neg hall, if_neg hall]
        exact ih (j + 1) _

theorem testBit_empty (i : Nat) : Ids.testBit [] i = false := rfl

theorem strLookupEqNe_spec (maxLength : Nat) (length_ : BitmapIndex Nat)
    (chars_ : List (BitmapIndex Nat)) (off : Nat) (s : List Nat) (i : Nat) :
    Ids.testBit (strLookupEqNe maxLength length_ chars_ off false s) i =
    Ids.testBit (strEqSpec maxLength length_ chars_ s) i := by
  unfold strLookupEqNe strEqSpec
  by_cases h0 : min (List.length s) maxLength = 0
  · rw [if_pos h0, if_pos h0]
    rfl
  · rw [if_neg h0, if_neg h0]
    by_cases hlong : min (List.length s) maxLength > List.length chars_
    · rw [if_pos hlong, Ids.testBit_mkIds]
      have hspec : Ids.testBit (strEqAndChars chars_ (s.take maxLength)
          (min (List.length s) maxLength) 0
          (length_.lookupP (fun l => decide (l ≤ min (List.length s)
            maxLength)))) i = false := by
        by_contra hb
        have htrue : Ids.testBit (strEqAndChars chars_ (s.take maxLength)
            (min (List.length s) maxLength) 0
            (length_.lookupP (fun l => decide (l ≤ min (List.length s)
              maxLength)))) i = true := by
          cases hx : Ids.testBit (strEqAndChars chars_ (s.take maxLength)
              (min (List.length s) maxLength) 0
              (length_.lookupP (fun l => decide (l ≤ min (List.length s)
                maxLength)))) i
          · exact absurd hx hb
          · rfl
        have := testBit_strEqAndChars_le chars_ (s.take maxLength)
          (min (List.length s) maxLength) 0 _ i htrue
          (List.length chars_) (by omega) (by omega)
        rw [show chars_.getD (List.length chars_) BitmapIndex.empty =
            BitmapIndex.empty from List.getD_eq_default _ _ (le_refl _)]
          at this
        exact absurd this (by simp [BitmapIndex.lookupP, BitmapIndex.empty,
          Ids.testBit])
      rw [hspec]
      simp
    · rw [if_neg hlong]
      by_cases hz : ((length_.lookupP (fun l => decide (l ≤ min
          (List.length s) maxLength))).all0) = true
      · rw [if_pos hz, Ids.testBit_mkIds,
            Ids.testBit_of_all0 _ (strEqAndChars_all0 chars_
              (s.take maxLength) _ 0 _ hz) i]
        simp
      · rw [if_neg hz]
        exact strEqLoop_eq_spec chars_ (s.take maxLength) off _ 0 _ i

theorem strLookupEqNe_flip (maxLength : Nat) (length_ : BitmapIndex Nat)
    (chars_ : List (BitmapIndex Nat)) (off : Nat) (s : List Nat) :
    strLookupEqNe maxLength length_ chars_ off true s =
    (strLookupEqNe maxLength length_ chars_ off false s).flip := by
  unfold strLookupEqNe
  by_cases h0 : min (List.length s) maxLength = 0
  · rw [if_pos h0, if_pos h0]
    rfl
  · rw [if_neg h0, if_neg h0]
    by_cases hlong : min (List.length s) maxLength > List.length chars_
    · rw [if_pos hlong, if_pos hlong, flip_mkIds_false]
    · rw [if_neg hlong, if_neg hlong]
      by_cases hz : ((length_.lookupP (fun l => decide (l ≤ min
          (List.length s) maxLength))).all0) = true
      · rw [if_pos hz, if_pos hz, flip_mkIds_false]
      · rw [if_neg hz, if_neg hz]
        exact strEqLoop_ne_flip chars_ (s.take maxLength) off _ 0 _

/-- Claim C5: for every string index and query string `s` (truncated to
`max_length` when longer), `lookup_impl(=, s)` returns the `length == 0`
bitmap when the query is empty, and otherwise (bit for bit) the AND of
the `length <= |s|` bitmap with, for each position `i < |s|`, the bitmap
for `chars[i] == s[i]`; `lookup_impl(!=, s)` returns the complement of
the `=` result.  (`off` is the wrapper's `offset()`; the universal
wrapper of C1 is applied on top of both results.) -/
theorem claim_C5 (maxLength : Nat) (length_ : BitmapIndex Nat)
    (chars_ : List (BitmapIndex Nat)) (off : Nat) (s : List Nat)
    (i : Nat) :
    strLookupImpl maxLength length_ chars_ off RelOp.equal s =
      Except.ok (strLookupEqNe maxLength length_ chars_ off false s)
    ∧ Ids.testBit (strLookupEqNe maxLength length_ chars_ off false s) i =
      Ids.testBit (strEqSpec maxLength length_ chars_ s) i
    ∧ strLookupImpl maxLength length_ chars_ off RelOp.notEqual s =
      Except.ok ((strLookupEqNe maxLength length_ chars_ off false s).flip) := by
  refine ⟨rfl, strLookupEqNe_spec maxLength length_ chars_ off s i, ?_⟩
  unfold strLookupImpl
  rw [strLookupEqNe_flip maxLength length_ chars_ off s]

end Vast

namespace Vast

/-! ## Round-trip invariants (claim C2)

The build invariant records, for a value index reached from a fresh
factory state by consecutive `append(x)` calls, which value was recorded
at each position in each underlying bitmap index. -/

/-- The initial scalar subclass states `value_index::make` (and
`sequence_index::container_append`) produces: empty coders throughout;
the binner and the maximum string length are factory parameters. -/
def freshScalar (sc : ScalarSub) : Prop :=
  (∃ bin, sc = ScalarSub.arith bin BitmapIndex.empty) ∨
  (∃ maxLength, sc = ScalarSub.strI maxLength BitmapIndex.empty []) ∨
  sc = ScalarSub.addrI AddrIdx.empty ∨
  sc = ScalarSub.subnetI ⟨[], [], AddrIdx.empty⟩ BitmapIndex.empty ∨
  sc = ScalarSub.portI BitmapIndex.empty BitmapIndex.empty

/-- The constructor kind of a scalar subclass state (appends never change
it). -/
def kindOf : ScalarSub → Nat
  | ScalarSub.arith _ _ => 0
  | ScalarSub.strI _ _ _ => 1
  | ScalarSub.addrI _ => 2
  | ScalarSub.subnetI _ _ => 3
  | ScalarSub.portI _ _ => 4

theorem conformsScalar_kind (sc sc2 : ScalarSub)
    (h : kindOf sc = kindOf sc2) (x : Data) :
    conformsScalar sc x = conformsScalar sc2 x := by
  cases sc <;> cases sc2 <;> first
    | (cases x <;> rfl)
    | simp [kindOf] at h

theorem getD_snoc_lt {α : Type} (xs : List α) (x d : α) (i : Nat)
    (h : i < List.length xs) : (xs ++ [x]).getD i d = xs.getD i d := by
  rw [List.getD_eq_getElem?_getD, List.getElem?_append_left h,
      List.getD_eq_getElem?_getD]

theorem getD_snoc_last {α : Type} (xs : List α) (x d : α) :
    (xs ++ [x]).getD (List.length xs) d = x := by
  rw [List.getD_eq_getElem?_getD, List.getElem?_append_right (le_refl _)]
  simp

theorem getD_snoc_gt {α : Type} (xs : List α) (x d : α) (i : Nat)
    (h : List.length xs + 1 ≤ i) : (xs ++ [x]).getD i d = d := by
  apply List.getD_eq_default
  simp only [List.length_append, List.length_cons, List.length_nil]
  omega

theorem getD_map_range {α : Type} (k : Nat) (f : Nat → α) (d : α)
    (j : Nat) : ((List.range k).map f).getD j d =
      if j < k then f j else d := by
  by_cases h : j < k
  · rw [if_pos h, List.getD_eq_getElem?_getD, List.getElem?_map,
        List.getElem?_range h]
    rfl
  · rw [if_neg h]
    apply List.getD_eq_default
    simpa using Nat.le_of_not_lt h

theorem getD_take_lt {α : Type} (t : List α) (m k : Nat) (d : α)
    (h1 : k < m) (h2 : k < List.length t) :
    (t.take m).getD k d = t.getD k d := by
  have hk : k < List.length (t.take m) := by
    simp only [List.length_take]
    omega
  rw [List.getD_eq_getElem?_getD, List.getElem?_eq_getElem hk,
      List.getElem_take, List.getD_eq_getElem?_getD,
      List.getElem?_eq_getElem h2]

theorem getD_replicate_self {α : Type} (n i : Nat) (d : α) :
    (List.replicate n d).getD i d = d := by
  by_cases h : i < n
  · rw [List.getD_eq_getElem?_getD, List.getElem?_replicate]
    simp [h]
  · rw [List.getD_eq_default _ _ (by simpa using Nat.le_of_not_lt h)]

theorem size_mkIds (n : Nat) (b : Bool) : Ids.size (Ids.mkIds n b) = n := by
  unfold Ids.size Ids.mkIds
  simp

theorem mkIds_snoc_true (n : Nat) :
    ((Ids.mkIds n true).appendBits false (n - Ids.size (Ids.mkIds n true))
      ).appendBit true = Ids.mkIds (n + 1) true := by
  rw [size_mkIds, Nat.sub_self]
  unfold Ids.mkIds Ids.appendBits Ids.appendBit
  rw [show List.replicate 0 false = ([] : List Bool) from rfl,
      List.append_nil, ← List.replicate_succ']

theorem size_appendBits (a : Ids) (b : Bool) (n : Nat) :
    Ids.size (a.appendBits b n) = Ids.size a + n := by
  unfold Ids.size Ids.appendBits
  simp

theorem testBit_appendGap_old (a : Ids) (pos : Nat) (b : Bool) (i : Nat)
    (h : i < Ids.size a) (hle : Ids.size a ≤ pos) :
    Ids.testBit ((a.appendBits false (pos - Ids.size a)).appendBit b) i =
      Ids.testBit a i := by
  rw [Ids.testBit_appendBit_old _ _ _
      (by rw [size_appendBits]; omega),
    Ids.testBit_appendBits_old _ _ _ _ h]

theorem testBit_append_last (a : Ids) (pos : Nat) (b : Bool)
    (h : Ids.size a ≤ pos) :
    Ids.testBit ((a.appendBits false (pos - Ids.size a)).appendBit b) pos
      = b := by
  unfold Ids.testBit Ids.appendBits Ids.appendBit
  rw [List.append_assoc, List.getD_eq_getElem?_getD,
      List.getElem?_append_right (by simpa using h)]
  rw [List.getElem?_append_right (by simp; unfold Ids.size at *; omega)]
  simp only [List.length_replicate]
  rw [show pos - List.length a - (pos - Ids.size a) = 0 by
    unfold Ids.size at *; omega]
  rfl

theorem testBit_true_lt (a : Ids) (i : Nat) (h : Ids.testBit a i = true) :
    i < Ids.size a := by
  by_contra hn
  rw [testBit_ge_size a i (Nat.le_of_not_lt hn)] at h
  exact Bool.noConfusion h

theorem rowAt_some_lt {α : Type} (bi : BitmapIndex α) (i : Nat) (v : α)
    (h : bi.rowAt i = Option.some v) : i < bi.size := by
  by_contra hn
  rw [BitmapIndex.rowAt,
      List.getD_eq_default _ _ (Nat.le_of_not_lt hn)] at h
  exact Option.noConfusion h

theorem rowAt_place_keep {α : Type} (bi : BitmapIndex α) (pos : Nat)
    (x : α) (i : Nat) (v : α) (h : bi.rowAt i = Option.some v) :
    (bi.place pos x).rowAt i = Option.some v := by
  rw [BitmapIndex.rowAt_place_old bi pos x i (rowAt_some_lt bi i v h)]
  exact h

end Vast

namespace Vast

/-- The recorded rows of an `address_index` state at position `i` for an
appended address `bytes`: every byte index holds the byte, and the v4
bitmap holds the embeds-v4 flag. -/
def AddrRows (a : AddrIdx) (i : Nat) (bytes : List Nat) : Prop :=
  (∀ b, b < 16 →
    (a.bytes_.getD b BitmapIndex.empty).rowAt i =
      Option.some (bytes.getD b 0)) ∧
  a.v4_.rowAt i = Option.some (embedsV4 bytes)

/-- The per-subclass build invariant after appending `xs` at positions
`0, 1, ...`: every underlying bitmap index covers at most
`xs.length` positions, and at each position holding a non-nil value its
rows record exactly the components `append_impl` placed there. -/
def ScalarInv (sc : ScalarSub) (xs : List Data) : Prop :=
  match sc with
  | ScalarSub.arith bin bmi =>
      bmi.size ≤ List.length xs ∧
      ∀ i z, xs.getD i Data.none = Data.num z →
        bmi.rowAt i = Option.some (bin.apply z)
  | ScalarSub.strI maxLength length_ chars_ =>
      length_.size ≤ List.length xs ∧
      (∀ j, (chars_.getD j BitmapIndex.empty).size ≤ List.length xs) ∧
      ∀ i t, xs.getD i Data.none = Data.str t →
        length_.rowAt i = Option.some (min (List.length t) maxLength) ∧
        min (List.length t) maxLength ≤ List.length chars_ ∧
        ∀ j, j < min (List.length t) maxLength →
          (chars_.getD j BitmapIndex.empty).rowAt i =
            Option.some (t.getD j 0)
  | ScalarSub.addrI a =>
      (∀ b, (a.bytes_.getD b BitmapIndex.empty).size ≤ List.length xs) ∧
      a.v4_.size ≤ List.length xs ∧
      ∀ i bytes, xs.getD i Data.none = Data.addr bytes → AddrRows a i bytes
  | ScalarSub.subnetI network_ length_ =>
      network_.none_ = [] ∧
      Ids.size network_.mask_ ≤ List.length xs ∧
      length_.size ≤ List.length xs ∧
      (∀ b, (network_.sub.bytes_.getD b BitmapIndex.empty).size ≤
        List.length xs) ∧
      network_.sub.v4_.size ≤ List.length xs ∧
      ∀ i bytes len, xs.getD i Data.none = Data.subnetV bytes len →
        Ids.testBit network_.mask_ i = true ∧
        length_.rowAt i = Option.some len ∧
        AddrRows network_.sub i bytes
  | ScalarSub.portI num_ proto_ =>
      num_.size ≤ List.length xs ∧ proto_.size ≤ List.length xs ∧
      ∀ i n t, xs.getD i Data.none = Data.portV n t →
        num_.rowAt i = Option.some n ∧ proto_.rowAt i = Option.some t

/-- The full build invariant of a scalar value index reached from the
fresh state of kind `sc0` by appending `xs` in order: `mask_` is all-ones
over `xs.length` positions, `none_` marks exactly the nil positions, and
the subclass rows are as recorded. -/
def BuildInv (sc0 : ScalarSub) (vi : ValueIndex) (xs : List Data) : Prop :=
  ∃ sc, vi.sub = SubIdx.scalar sc ∧ kindOf sc = kindOf sc0 ∧
    vi.mask_ = Ids.mkIds (List.length xs) true ∧
    Ids.size vi.none_ ≤ List.length xs ∧
    (∀ i, i < List.length xs →
      Ids.testBit vi.none_ i = isNil (xs.getD i Data.none)) ∧
    ScalarInv sc xs

end Vast

namespace Vast

theorem getD_snoc_cases {α : Type} (xs : List α) (x d : α) (i : Nat) :
    (xs ++ [x]).getD i d =
      if i < List.length xs then xs.getD i d
      else if i = List.length xs then x else d := by
  rcases Nat.lt_trichotomy i (List.length xs) with h | h | h
  · rw [getD_snoc_lt _ _ _ _ h, if_pos h]
  · subst h
    rw [getD_snoc_last, if_neg (lt_irrefl _), if_pos rfl]
  · rw [getD_snoc_gt _ _ _ _ (by omega), if_neg (by omega),
        if_neg (by omega)]

theorem noneInv_nil_step (none_ : Ids) (xs : List Data)
    (hsz : Ids.size none_ ≤ List.length xs)
    (hbits : ∀ i, i < List.length xs →
      Ids.testBit none_ i = isNil (xs.getD i Data.none)) :
    Ids.size ((none_.appendBits false
        (List.length xs - Ids.size none_)).appendBit true) ≤
      List.length (xs ++ [Data.none]) ∧
    ∀ i, i < List.length (xs ++ [Data.none]) →
      Ids.testBit ((none_.appendBits false
          (List.length xs - Ids.size none_)).appendBit true) i =
        isNil ((xs ++ [Data.none]).getD i Data.none) := by
  constructor
  · rw [size_appendGap none_ (List.length xs) true hsz]
    simp
  · intro i hi
    simp only [List.length_append, List.length_cons, List.length_nil] at hi
    rw [getD_snoc_cases]
    rcases Nat.lt_trichotomy i (List.length xs) with h | h | h
    · rw [if_pos h]
      rcases Nat.lt_or_ge i (Ids.size none_) with h2 | h2
      · rw [testBit_appendGap_old none_ (List.length xs) true i h2 hsz]
        exact hbits i h
      · rw [testBit_gap none_ _ true i h2 (by omega), ← hbits i h,
            testBit_ge_size none_ i h2]
    · subst h
      rw [if_neg (lt_irrefl _), if_pos rfl,
          testBit_append_last none_ _ true hsz]
      rfl
    · omega

theorem noneInv_nonnil_step (none_ : Ids) (xs : List Data) (x : Data)
    (hx : isNil x = false)
    (hsz : Ids.size none_ ≤ List.length xs)
    (hbits : ∀ i, i < List.length xs →
      Ids.testBit none_ i = isNil (xs.getD i Data.none)) :
    Ids.size none_ ≤ List.length (xs ++ [x]) ∧
    ∀ i, i < List.length (xs ++ [x]) →
      Ids.testBit none_ i = isNil ((xs ++ [x]).getD i Data.none) := by
  constructor
  · simp only [List.length_append, List.length_cons, List.length_nil]
    omega
  · intro i hi
    simp only [List.length_append, List.length_cons, List.length_nil] at hi
    rw [getD_snoc_cases]
    rcases Nat.lt_trichotomy i (List.length xs) with h | h | h
    · rw [if_pos h]
      exact hbits i h
    · subst h
      rw [if_neg (lt_irrefl _), if_pos rfl, hx,
          testBit_ge_size none_ _ hsz]
    · omega

theorem scalarInv_nil_step (sc : ScalarSub) (xs : List Data)
    (h : ScalarInv sc xs) : ScalarInv sc (xs ++ [Data.none]) := by
  have hlen : List.length (xs ++ [Data.none]) = List.length xs + 1 := by
    simp
  cases sc with
  | arith bin bmi =>
      obtain ⟨hsz, hrows⟩ := h
      refine ⟨by omega, ?_⟩
      intro i z hiz
      rw [getD_snoc_cases] at hiz
      split_ifs at hiz with h1 h2
      · exact hrows i z hiz
  | strI maxLength length_ chars_ =>
      obtain ⟨hsz, hcsz, hrows⟩ := h
      refine ⟨by omega, fun j => by have := hcsz j; omega, ?_⟩
      intro i t hit
      rw [getD_snoc_cases] at hit
      split_ifs at hit with h1 h2
      · exact hrows i t hit
  | addrI a =>
      obtain ⟨hbsz, hvsz, hrows⟩ := h
      refine ⟨fun b => by have := hbsz b; omega, by omega, ?_⟩
      intro i bytes hib
      rw [getD_snoc_cases] at hib
      split_ifs at hib with h1 h2
      · exact hrows i bytes hib
  | subnetI network_ length_ =>
      obtain ⟨hn0, hmsz, hlsz, hbsz, hvsz, hrows⟩ := h
      refine ⟨hn0, by omega, by omega, fun b => by have := hbsz b; omega,
        by omega, ?_⟩
      intro i bytes len hib
      rw [getD_snoc_cases] at hib
      split_ifs at hib with h1 h2
      · exact hrows i bytes len hib
  | portI num_ proto_ =>
      obtain ⟨hnsz, hpsz, hrows⟩ := h
      refine ⟨by omega, by omega, ?_⟩
      intro i p t hit
      rw [getD_snoc_cases] at hit
      split_ifs at hit with h1 h2
      · exact hrows i p t hit

end Vast

namespace Vast

theorem addrPlace_bytes_getD (a : AddrIdx) (pos : Nat) (bytes : List Nat)
    (b : Nat) :
    (addrPlace a pos bytes).bytes_.getD b BitmapIndex.empty =
      if b < 16 then
        (a.bytes_.getD b BitmapIndex.empty).place pos (bytes.getD b 0)
      else BitmapIndex.empty := by
  unfold addrPlace
  dsimp only
  exact getD_map_range 16 _ _ b

theorem addrRows_place_keep (a : AddrIdx) (pos : Nat) (bytes2 : List Nat)
    (i : Nat) (bytes : List Nat) (h : AddrRows a i bytes) :
    AddrRows (addrPlace a pos bytes2) i bytes := by
  obtain ⟨hb, hv⟩ := h
  constructor
  · intro b hb16
    rw [addrPlace_bytes_getD, if_pos hb16]
    exact rowAt_place_keep _ _ _ _ _ (hb b hb16)
  · exact rowAt_place_keep _ _ _ _ _ hv

theorem addrRows_place_self (a : AddrIdx) (pos : Nat) (bytes : List Nat)
    (hsz : ∀ b, (a.bytes_.getD b BitmapIndex.empty).size ≤ pos)
    (hv4 : a.v4_.size ≤ pos) :
    AddrRows (addrPlace a pos bytes) pos bytes := by
  constructor
  · intro b hb16
    rw [addrPlace_bytes_getD, if_pos hb16]
    exact BitmapIndex.rowAt_place_self _ _ _ (hsz b)
  · exact BitmapIndex.rowAt_place_self _ _ _ hv4

theorem size_empty {α : Type} : (BitmapIndex.empty : BitmapIndex α).size = 0
  := rfl

theorem scalarInv_arith_step (bin : Binner) (bmi : BitmapIndex Int)
    (xs : List Data) (z : Int)
    (h : ScalarInv (ScalarSub.arith bin bmi) xs) :
    ScalarInv (ScalarSub.arith bin
        (bmi.place (List.length xs) (bin.apply z)))
      (xs ++ [Data.num z]) := by
  obtain ⟨hsz, hrows⟩ := h
  refine ⟨?_, ?_⟩
  · rw [BitmapIndex.size_place bmi _ _ hsz]
    simp
  · intro i z2 hiz
    rw [getD_snoc_cases] at hiz
    split_ifs at hiz with h1 h2
    · exact rowAt_place_keep _ _ _ _ _ (hrows i z2 hiz)
    · subst h2
      cases hiz
      exact BitmapIndex.rowAt_place_self bmi _ _ hsz

theorem scalarInv_port_step (num_ proto_ : BitmapIndex Nat)
    (xs : List Data) (p t : Nat)
    (h : ScalarInv (ScalarSub.portI num_ proto_) xs) :
    ScalarInv (ScalarSub.portI (num_.place (List.length xs) p)
        (proto_.place (List.length xs) t))
      (xs ++ [Data.portV p t]) := by
  obtain ⟨hnsz, hpsz, hrows⟩ := h
  refine ⟨?_, ?_, ?_⟩
  · rw [BitmapIndex.size_place num_ _ _ hnsz]
    simp
  · rw [BitmapIndex.size_place proto_ _ _ hpsz]
    simp
  · intro i p2 t2 hit
    rw [getD_snoc_cases] at hit
    split_ifs at hit with h1 h2
    · obtain ⟨hr1, hr2⟩ := hrows i p2 t2 hit
      exact ⟨rowAt_place_keep _ _ _ _ _ hr1,
        rowAt_place_keep _ _ _ _ _ hr2⟩
    · subst h2
      cases hit
      exact ⟨BitmapIndex.rowAt_place_self num_ _ _ hnsz,
        BitmapIndex.rowAt_place_self proto_ _ _ hpsz⟩

theorem scalarInv_addr_step (a : AddrIdx) (xs : List Data)
    (bytes : List Nat)
    (h : ScalarInv (ScalarSub.addrI a) xs) :
    ScalarInv (ScalarSub.addrI (addrPlace a (List.length xs) bytes))
      (xs ++ [Data.addr bytes]) := by
  obtain ⟨hbsz, hvsz, hrows⟩ := h
  have hlen : List.length (xs ++ [Data.addr bytes]) = List.length xs + 1
    := by simp
  refine ⟨?_, ?_, ?_⟩
  · intro b
    rw [addrPlace_bytes_getD]
    by_cases hb : b < 16
    · rw [if_pos hb, BitmapIndex.size_place _ _ _ (hbsz b)]
      omega
    · rw [if_neg hb, size_empty]
      omega
  · unfold addrPlace
    rw [BitmapIndex.size_place _ _ _ hvsz]
    omega
  · intro i bytes2 hib
    rw [getD_snoc_cases] at hib
    split_ifs at hib with h1 h2
    · exact addrRows_place_keep _ _ _ _ _ (hrows i bytes2 hib)
    · subst h2
      cases hib
      exact addrRows_place_self a _ bytes hbsz hvsz

theorem scalarInv_subnet_step (network_ : VI AddrIdx)
    (length_ : BitmapIndex Nat) (xs : List Data) (bytes : List Nat)
    (len : Nat)
    (h : ScalarInv (ScalarSub.subnetI network_ length_) xs) :
    ScalarInv (ScalarSub.subnetI
        ⟨(network_.mask_.appendBits false
            (List.length xs - Ids.size network_.mask_)).appendBit true,
          network_.none_,
          addrPlace network_.sub (List.length xs) bytes⟩
        (length_.place (List.length xs) len))
      (xs ++ [Data.subnetV bytes len]) := by
  obtain ⟨hn0, hmsz, hlsz, hbsz, hvsz, hrows⟩ := h
  have hlen : List.length (xs ++ [Data.subnetV bytes len]) =
      List.length xs + 1 := by simp
  refine ⟨hn0, ?_, ?_, ?_, ?_, ?_⟩
  · rw [size_appendGap network_.mask_ _ true hmsz]
    omega
  · rw [BitmapIndex.size_place length_ _ _ hlsz]
    omega
  · intro b
    rw [addrPlace_bytes_getD]
    by_cases hb : b < 16
    · rw [if_pos hb, BitmapIndex.size_place _ _ _ (hbsz b)]
      omega
    · rw [if_neg hb, size_empty]
      omega
  · unfold addrPlace
    rw [BitmapIndex.size_place _ _ _ hvsz]
    omega
  · intro i bytes2 len2 hib
    rw [getD_snoc_cases] at hib
    split_ifs at hib with h1 h2
    · obtain ⟨hr1, hr2, hr3⟩ := hrows i bytes2 len2 hib
      refine ⟨?_, rowAt_place_keep _ _ _ _ _ hr2,
        addrRows_place_keep _ _ _ _ _ hr3⟩
      rw [testBit_appendGap_old network_.mask_ _ true i
          (testBit_true_lt _ _ hr1) hmsz]
      exact hr1
    · subst h2
      cases hib
      refine ⟨testBit_append_last network_.mask_ _ true hmsz,
        BitmapIndex.rowAt_place_self length_ _ _ hlsz,
        addrRows_place_self network_.sub _ bytes hbsz hvsz⟩

theorem scalarInv_str_step (maxLength : Nat) (length_ : BitmapIndex Nat)
    (chars_ : List (BitmapIndex Nat)) (xs : List Data) (t : List Nat)
    (h : ScalarInv (ScalarSub.strI maxLength length_ chars_) xs) :
    ScalarInv (ScalarSub.strI maxLength
        (length_.place (List.length xs) (min (List.length t) maxLength))
        ((List.range (max (List.length chars_)
            (min (List.length t) maxLength))).map
          (fun j => if j < min (List.length t) maxLength then
              (chars_.getD j BitmapIndex.empty).place (List.length xs)
                (t.getD j 0)
            else chars_.getD j BitmapIndex.empty)))
      (xs ++ [Data.str t]) := by
  obtain ⟨hlsz, hcsz, hrows⟩ := h
  have hlen : List.length (xs ++ [Data.str t]) = List.length xs + 1 := by
    simp
  have hch : ∀ j, (((List.range (max (List.length chars_)
      (min (List.length t) maxLength))).map
        (fun j => if j < min (List.length t) maxLength then
            (chars_.getD j BitmapIndex.empty).place (List.length xs)
              (t.getD j 0)
          else chars_.getD j BitmapIndex.empty)).getD j
          BitmapIndex.empty) =
      if j < min (List.length t) maxLength then
        (chars_.getD j BitmapIndex.empty).place (List.length xs)
          (t.getD j 0)
      else chars_.getD j BitmapIndex.empty := by
    intro j
    rw [getD_map_range]
    by_cases hj : j < max (List.length chars_) (min (List.length t)
        maxLength)
    · rw [if_pos hj]
    · rw [if_neg hj]
      have hjc : List.length chars_ ≤ j := by omega
      have hjl : ¬(j < min (List.length t) maxLength) := by omega
      rw [if_neg hjl, List.getD_eq_default _ _ hjc]
  have hclen : List.length ((List.range (max (List.length chars_)
      (min (List.length t) maxLength))).map
        (fun j => if j < min (List.length t) maxLength then
            (chars_.getD j BitmapIndex.empty).place (List.length xs)
              (t.getD j 0)
          else chars_.getD j BitmapIndex.empty)) =
      max (List.length chars_) (min (List.length t) maxLength) := by
    simp
  refine ⟨?_, ?_, ?_⟩
  · rw [BitmapIndex.size_place length_ _ _ hlsz]
    omega
  · intro j
    rw [hch j]
    by_cases hj : j < min (List.length t) maxLength
    · rw [if_pos hj, BitmapIndex.size_place _ _ _ (hcsz j)]
      omega
    · rw [if_neg hj]
      have := hcsz j
      omega
  · intro i t2 hit
    rw [getD_snoc_cases] at hit
    split_ifs at hit with h1 h2
    · obtain ⟨hr1, hr2, hr3⟩ := hrows i t2 hit
      refine ⟨rowAt_place_keep _ _ _ _ _ hr1, ?_, ?_⟩
      · rw [hclen]
        omega
      · intro j hj
        rw [hch j]
        by_cases hj2 : j < min (List.length t) maxLength
        · rw [if_pos hj2]
          exact rowAt_place_keep _ _ _ _ _ (hr3 j hj)
        · rw [if_neg hj2]
          exact hr3 j hj
    · subst h2
      cases hit
      refine ⟨BitmapIndex.rowAt_place_self length_ _ _ hlsz, ?_, ?_⟩
      · rw [hclen]
        omega
      · intro j hj
        rw [hch j, if_pos hj]
        exact BitmapIndex.rowAt_place_self _ _ _ (hcsz j)

end Vast

namespace Vast

theorem buildInv_step (sc0 : ScalarSub) (vi : ValueIndex) (xs : List Data)
    (x : Data) (hinv : BuildInv sc0 vi xs)
    (hok : (isNil x || conformsScalar sc0 x) = true) :
    BuildInv sc0 (ValueIndex.appendEnd vi x).2 (xs ++ [x]) := by
  obtain ⟨sc, hsub, hkind, hmask, hnsz, hnone, hsinv⟩ := hinv
  have hoff : vi.offset = List.length xs := by
    unfold VI.offset
    rw [hmask, size_mkIds]
  have hge : ¬(List.length xs < vi.mask_.size) := by
    rw [hmask, size_mkIds]
    exact lt_irrefl _
  have happ : ValueIndex.appendEnd vi x =
      ValueIndex.append vi x (List.length xs) := by
    unfold ValueIndex.appendEnd
    rw [hoff]
  have hmask2 : ((vi.mask_.appendBits false
      (List.length xs - vi.mask_.size)).appendBit true) =
      Ids.mkIds (List.length xs + 1) true := by
    rw [hmask, size_mkIds]
    have := mkIds_snoc_true (List.length xs)
    rw [size_mkIds] at this
    exact this
  by_cases hnil : isNil x = true
  · have hxn : x = Data.none := by
      cases x <;> first | rfl | simp [isNil] at hnil
    subst hxn
    rw [happ, append_nil_shape vi (List.length xs) hge]
    dsimp only
    refine ⟨sc, hsub, hkind, ?_, (noneInv_nil_step vi.none_ xs hnsz
      hnone).1, (noneInv_nil_step vi.none_ xs hnsz hnone).2,
      scalarInv_nil_step sc xs hsinv⟩
    rw [hmask2]
    congr 1
    simp
  · have hnil2 : isNil x = false := by
      cases hh : isNil x
      · rfl
      · exact absurd hh hnil
    have hconf : conformsScalar sc x = true := by
      rw [conformsScalar_kind sc sc0 hkind, ← hok, hnil2]
      simp
    have hlen : List.length (xs ++ [x]) = List.length xs + 1 := by simp
    cases sc with
    | arith bin bmi =>
        cases x <;> simp [conformsScalar] at hconf
        next z =>
          have hs : subAppendImpl vi.sub (Data.num z) (List.length xs) =
              (true, SubIdx.scalar (ScalarSub.arith bin
                (bmi.place (List.length xs) (Binner.apply bin z)))) := by
            rw [hsub]
            rfl
          rw [happ, append_nonNil_ok vi (Data.num z) (List.length xs)
            (fun hcon => Data.noConfusion hcon) hge _ hs]
          dsimp only
          refine ⟨_, rfl, hkind, ?_,
            (noneInv_nonnil_step vi.none_ xs _ hnil2 hnsz hnone).1,
            (noneInv_nonnil_step vi.none_ xs _ hnil2 hnsz hnone).2,
            scalarInv_arith_step bin bmi xs z hsinv⟩
          rw [hmask2, hlen]
    | strI maxLength length_ chars_ =>
        cases x <;> simp [conformsScalar] at hconf
        next t =>
          have hs : subAppendImpl vi.sub (Data.str t) (List.length xs) =
              (true, SubIdx.scalar (ScalarSub.strI maxLength
                (length_.place (List.length xs)
                  (min (List.length t) maxLength))
                ((List.range (max (List.length chars_)
                    (min (List.length t) maxLength))).map
                  (fun j => if j < min (List.length t) maxLength then
                      (chars_.getD j BitmapIndex.empty).place
                        (List.length xs) (t.getD j 0)
                    else chars_.getD j BitmapIndex.empty)))) := by
            rw [hsub]
            rfl
          rw [happ, append_nonNil_ok vi (Data.str t) (List.length xs)
            (fun hcon => Data.noConfusion hcon) hge _ hs]
          dsimp only
          refine ⟨_, rfl, hkind, ?_,
            (noneInv_nonnil_step vi.none_ xs _ hnil2 hnsz hnone).1,
            (noneInv_nonnil_step vi.none_ xs _ hnil2 hnsz hnone).2,
            scalarInv_str_step maxLength length_ chars_ xs t hsinv⟩
          rw [hmask2, hlen]
    | addrI a =>
        cases x <;> simp [conformsScalar] at hconf
        next bytes =>
          have hs : subAppendImpl vi.sub (Data.addr bytes)
              (List.length xs) =
              (true, SubIdx.scalar (ScalarSub.addrI
                (addrPlace a (List.length xs) bytes))) := by
            rw [hsub]
            rfl
          rw [happ, append_nonNil_ok vi (Data.addr bytes)
            (List.length xs) (fun hcon => Data.noConfusion hcon) hge
            _ hs]
          dsimp only
          refine ⟨_, rfl, hkind, ?_,
            (noneInv_nonnil_step vi.none_ xs _ hnil2 hnsz hnone).1,
            (noneInv_nonnil_step vi.none_ xs _ hnil2 hnsz hnone).2,
            scalarInv_addr_step a xs bytes hsinv⟩
          rw [hmask2, hlen]
    | subnetI network_ length_ =>
        cases x <;> simp [conformsScalar] at hconf
        next bytes len =>
          have hmsz : Ids.size network_.mask_ ≤ List.length xs :=
            hsinv.2.1
          have hs : subAppendImpl vi.sub (Data.subnetV bytes len)
              (List.length xs) =
              (true, SubIdx.scalar (ScalarSub.subnetI
                ⟨(network_.mask_.appendBits false
                    (List.length xs - Ids.size network_.mask_)).appendBit
                    true,
                  network_.none_,
                  addrPlace network_.sub (List.length xs) bytes⟩
                (length_.place (List.length xs) len))) := by
            rw [hsub]
            simp only [subAppendImpl, scalarAppendImpl, addrVIAppend,
              wrapAppendWith, addrAppendImplCore]
            rw [if_neg (by omega)]
          rw [happ, append_nonNil_ok vi (Data.subnetV bytes len)
            (List.length xs) (fun hcon => Data.noConfusion hcon) hge
            _ hs]
          dsimp only
          refine ⟨_, rfl, hkind, ?_,
            (noneInv_nonnil_step vi.none_ xs _ hnil2 hnsz hnone).1,
            (noneInv_nonnil_step vi.none_ xs _ hnil2 hnsz hnone).2,
            scalarInv_subnet_step network_ length_ xs bytes len hsinv⟩
          rw [hmask2, hlen]
    | portI num_ proto_ =>
        cases x <;> simp [conformsScalar] at hconf
        next p t =>
          have hs : subAppendImpl vi.sub (Data.portV p t)
              (List.length xs) =
              (true, SubIdx.scalar (ScalarSub.portI
                (num_.place (List.length xs) p)
                (proto_.place (List.length xs) t))) := by
            rw [hsub]
            rfl
          rw [happ, append_nonNil_ok vi (Data.portV p t)
            (List.length xs) (fun hcon => Data.noConfusion hcon) hge
            _ hs]
          dsimp only
          refine ⟨_, rfl, hkind, ?_,
            (noneInv_nonnil_step vi.none_ xs _ hnil2 hnsz hnone).1,
            (noneInv_nonnil_step vi.none_ xs _ hnil2 hnsz hnone).2,
            scalarInv_port_step num_ proto_ xs p t hsinv⟩
          rw [hmask2, hlen]

end Vast

namespace Vast

theorem buildInv_base (sc0 : ScalarSub) (hf : freshScalar sc0) :
    BuildInv sc0 (freshVI sc0) [] := by
  refine ⟨sc0, rfl, rfl, rfl, Nat.le_refl 0, ?_, ?_⟩
  · intro i hi
    exact absurd hi (Nat.not_lt_zero i)
  · have hnil : ∀ (i : Nat), List.getD ([] : List Data) i Data.none =
        Data.none := by
      intro i
      rfl
    rcases hf with ⟨bin, rfl⟩ | ⟨m, rfl⟩ | rfl | rfl | rfl
    · refine ⟨Nat.le_refl 0, ?_⟩
      intro i z h
      rw [hnil i] at h
      exact Data.noConfusion h
    · refine ⟨Nat.le_refl 0, ?_, ?_⟩
      · intro j
        rw [show List.getD ([] : List (BitmapIndex Nat)) j
            BitmapIndex.empty = BitmapIndex.empty from rfl]
        exact Nat.le_refl 0
      · intro i t h
        rw [hnil i] at h
        exact Data.noConfusion h
    · refine ⟨?_, Nat.le_refl 0, ?_⟩
      · intro b
        rw [show AddrIdx.empty.bytes_ =
            List.replicate 16 BitmapIndex.empty from rfl,
          getD_replicate_self]
        exact Nat.le_refl 0
      · intro i bytes h
        rw [hnil i] at h
        exact Data.noConfusion h
    · refine ⟨rfl, Nat.le_refl 0, Nat.le_refl 0, ?_, Nat.le_refl 0, ?_⟩
      · intro b
        rw [show (⟨[], [], AddrIdx.empty⟩ : VI AddrIdx).sub.bytes_ =
            List.replicate 16 BitmapIndex.empty from rfl,
          getD_replicate_self]
        exact Nat.le_refl 0
      · intro i bytes len h
        rw [hnil i] at h
        exact Data.noConfusion h
    · refine ⟨Nat.le_refl 0, Nat.le_refl 0, ?_⟩
      intro i p t h
      rw [hnil i] at h
      exact Data.noConfusion h

theorem buildFrom_inv (sc0 : ScalarSub) (hf : freshScalar sc0)
    (xs : List Data)
    (hconf : ∀ i, i < List.length xs →
      (isNil (xs.getD i Data.none) ||
        conformsScalar sc0 (xs.getD i Data.none)) = true) :
    BuildInv sc0 (buildFrom (freshVI sc0) xs) xs := by
  induction xs using List.reverseRecOn with
  | nil => exact buildInv_base sc0 hf
  | append_singleton ys y ih =>
      have hys : ∀ i, i < List.length ys →
          (isNil (ys.getD i Data.none) ||
            conformsScalar sc0 (ys.getD i Data.none)) = true := by
        intro i hi
        have hc := hconf i (by simp only [List.length_append,
          List.length_cons, List.length_nil]; omega)
        rwa [getD_snoc_lt _ _ _ _ hi] at hc
      have hy : (isNil y || conformsScalar sc0 y) = true := by
        have hc := hconf (List.length ys) (by simp)
        rwa [getD_snoc_last] at hc
      have hb : buildFrom (freshVI sc0) (ys ++ [y]) =
          (ValueIndex.appendEnd (buildFrom (freshVI sc0) ys) y).2 := by
        unfold buildFrom
        rw [List.foldl_append]
        rfl
      rw [hb]
      exact buildInv_step sc0 _ ys y (ih hys) hy

end Vast

namespace Vast

theorem testBit_strEqAndChars_of (chars_ : List (BitmapIndex Nat))
    (q : List Nat) (count : Nat) : ∀ (j : Nat) (acc : Ids) (i : Nat),
    Ids.testBit acc i = true →
    (∀ k, j ≤ k → k < j + count →
      Ids.testBit ((chars_.getD k BitmapIndex.empty).lookupP
        (fun c2 => decide (c2 = q.getD k 0))) i = true) →
    Ids.testBit (strEqAndChars chars_ q count j acc) i = true := by
  induction count with
  | zero =>
      intro j acc i h _
      exact h
  | succ c ih =>
      intro j acc i h hks
      apply ih (j + 1)
      · rw [Ids.testBit_and, h, hks j (le_refl j) (by omega)]
        rfl
      · intro k hk1 hk2
        exact hks k (by omega) (by omega)

theorem testBit_addrEqLoop_of (a : AddrIdx) (bytes : List Nat) (off : Nat)
    (count : Nat) : ∀ (s : Nat) (acc : Ids) (i : Nat),
    Ids.testBit acc i = true →
    (∀ k, s ≤ k → k < s + count →
      Ids.testBit ((a.bytes_.getD k BitmapIndex.empty).lookupP
        (fun w => decide (w = bytes.getD k 0))) i = true) →
    Ids.testBit (addrEqLoop a bytes off false count s acc) i = true := by
  induction count with
  | zero =>
      intro s acc i h _
      exact h
  | succ c ih =>
      intro s acc i h hks
      have hstep : Ids.testBit (acc.and
          ((a.bytes_.getD s BitmapIndex.empty).lookupP
            (fun w => decide (w = bytes.getD s 0)))) i = true := by
        rw [Ids.testBit_and, h, hks s (le_refl s) (by omega)]
        rfl
      unfold addrEqLoop
      by_cases hall : ((acc.and ((a.bytes_.getD s BitmapIndex.empty).lookupP
          (fun w => decide (w = bytes.getD s 0)))).all0) = true
      · rw [Ids.testBit_of_all0 _ hall i] at hstep
        exact Bool.noConfusion hstep
      · rw [if_neg hall]
        apply ih (s + 1) _ i hstep
        intro k hk1 hk2
        exact hks k (by omega) (by omega)

theorem lookup_wrap (vi : ValueIndex) (x : Data) (hx : isNil x = false)
    (rImpl : Ids)
    (himpl : subLookupImpl vi RelOp.equal x = Except.ok rImpl) :
    ValueIndex.lookup vi RelOp.equal x =
      Except.ok ((rImpl.sub vi.none_).and vi.mask_) := by
  unfold ValueIndex.lookup
  cases x
  · exact absurd hx (by simp [isNil])
  all_goals (rw [himpl])

end Vast

namespace Vast

theorem lookup_roundtrip (sc0 : ScalarSub) (vi : ValueIndex)
    (xs : List Data) (hinv : BuildInv sc0 vi xs) (i : Nat)
    (hi : i < List.length xs)
    (hoki : (isNil (xs.getD i Data.none) ||
      conformsScalar sc0 (xs.getD i Data.none)) = true) :
    ∃ r, ValueIndex.lookup vi RelOp.equal (xs.getD i Data.none) =
      Except.ok r ∧ Ids.testBit r i = true := by
  obtain ⟨sc, hsub, hkind, hmask, hnsz, hnone, hsinv⟩ := hinv
  have hmbit : Ids.testBit vi.mask_ i = true := by
    rw [hmask, Ids.testBit_mkIds, if_pos hi]
  by_cases hnil : isNil (xs.getD i Data.none) = true
  · have hx : xs.getD i Data.none = Data.none := by
      cases hgd : xs.getD i Data.none <;> rw [hgd] at hnil <;>
        first | rfl | simp [isNil] at hnil
    have hnb : Ids.testBit vi.none_ i = true := by
      rw [hnone i hi, hx]
      rfl
    refine ⟨vi.none_.and vi.mask_, ?_, ?_⟩
    · rw [hx]
      rfl
    · rw [Ids.testBit_and, hnb, hmbit]
      rfl
  · have hnil2 : isNil (xs.getD i Data.none) = false := by
      cases hh : isNil (xs.getD i Data.none)
      · rfl
      · exact absurd hh hnil
    have hconf : conformsScalar sc (xs.getD i Data.none) = true := by
      rw [conformsScalar_kind sc sc0 hkind, ← hoki, hnil2]
      simp
    have hnb : Ids.testBit vi.none_ i = false := by
      rw [hnone i hi]
      exact hnil2
    cases sc with
    | arith bin bmi =>
        obtain ⟨hsz, hrows⟩ := hsinv
        cases hgd : xs.getD i Data.none <;> rw [hgd] at hconf <;>
          simp [conformsScalar] at hconf
        next z =>
          have hrow := hrows i z hgd
          have himpl : subLookupImpl vi RelOp.equal (Data.num z) =
              Except.ok (bmi.lookupP
                (fun w => decide (w = Binner.apply bin z))) := by
            unfold subLookupImpl
            rw [hsub]
            rfl
          refine ⟨_, lookup_wrap vi _ (by rfl) _ himpl, ?_⟩
          rw [Ids.testBit_and, Ids.testBit_sub, hnb, hmbit,
            BitmapIndex.testBit_lookupP, hrow]
          simp
    | strI maxLength length_ chars_ =>
        obtain ⟨hlsz, hcsz, hrows⟩ := hsinv
        cases hgd : xs.getD i Data.none <;> rw [hgd] at hconf <;>
          simp [conformsScalar] at hconf
        next t =>
          obtain ⟨hr1, hr2, hr3⟩ := hrows i t hgd
          have himpl : subLookupImpl vi RelOp.equal (Data.str t) =
              Except.ok (strLookupEqNe maxLength length_ chars_
                (Ids.size vi.mask_) false t) := by
            unfold subLookupImpl
            rw [hsub]
            rfl
          refine ⟨_, lookup_wrap vi _ (by rfl) _ himpl, ?_⟩
          rw [Ids.testBit_and, Ids.testBit_sub, hnb, hmbit]
          have hbit : Ids.testBit (strLookupEqNe maxLength length_
              chars_ (Ids.size vi.mask_) false t) i = true := by
            rw [strLookupEqNe_spec]
            unfold strEqSpec
            by_cases hq0 : min (List.length t) maxLength = 0
            · rw [if_pos hq0, BitmapIndex.testBit_lookupP, hr1, hq0]
              simp
            · rw [if_neg hq0]
              apply testBit_strEqAndChars_of chars_ (t.take maxLength)
                (min (List.length t) maxLength) 0 _ i
              · rw [BitmapIndex.testBit_lookupP, hr1]
                simp
              · intro k hk1 hk2
                have hmin1 := Nat.min_le_left (List.length t) maxLength
                have hmin2 := Nat.min_le_right (List.length t) maxLength
                rw [BitmapIndex.testBit_lookupP, hr3 k (by omega),
                  getD_take_lt t maxLength k 0 (by omega) (by omega)]
                simp
          rw [hbit]
          rfl
    | addrI a =>
        obtain ⟨hbsz, hvsz, hrows⟩ := hsinv
        cases hgd : xs.getD i Data.none <;> rw [hgd] at hconf <;>
          simp [conformsScalar] at hconf
        next bytes =>
          obtain ⟨hbyt, hv4⟩ := hrows i bytes hgd
          have himpl : subLookupImpl vi RelOp.equal (Data.addr bytes) =
              Except.ok (addrLookupAddr a (Ids.size vi.mask_) false
                bytes) := by
            unfold subLookupImpl
            rw [hsub]
            rfl
          refine ⟨_, lookup_wrap vi _ (by rfl) _ himpl, ?_⟩
          rw [Ids.testBit_and, Ids.testBit_sub, hnb, hmbit]
          have hbit : Ids.testBit (addrLookupAddr a (Ids.size vi.mask_)
              false bytes) i = true := by
            unfold addrLookupAddr
            by_cases hv : embedsV4 bytes = true
            · rw [if_pos hv, if_pos hv]
              apply testBit_addrEqLoop_of a bytes _ (16 - 12) 12 _ i
              · unfold v4Storage
                rw [BitmapIndex.testBit_lookupP, hv4, hv]
                rfl
              · intro k hk1 hk2
                rw [BitmapIndex.testBit_lookupP, hbyt k (by omega)]
                simp
            · rw [if_neg hv, if_neg hv]
              apply testBit_addrEqLoop_of a bytes _ (16 - 0) 0 _ i
              · rw [hmask, size_mkIds, Ids.testBit_mkIds, if_pos hi]
              · intro k hk1 hk2
                rw [BitmapIndex.testBit_lookupP, hbyt k (by omega)]
                simp
          rw [hbit]
          rfl
    | subnetI network_ length_ =>
        obtain ⟨hn0, hmsz, hlsz, hbsz, hvsz, hrows⟩ := hsinv
        cases hgd : xs.getD i Data.none <;> rw [hgd] at hconf <;>
          simp [conformsScalar] at hconf
        next bytes len =>
          obtain ⟨hmbN, hlrow, hbyt, hv4⟩ := hrows i bytes len hgd
          have himpl : subLookupImpl vi RelOp.equal
              (Data.subnetV bytes len) =
              Except.ok ((((addrLookupAddr network_.sub
                  (Ids.size network_.mask_) false bytes).sub
                  network_.none_).and network_.mask_).and
                (length_.lookupP (fun l => decide (l = len)))) := by
            unfold subLookupImpl
            rw [hsub]
            rfl
          refine ⟨_, lookup_wrap vi _ (by rfl) _ himpl, ?_⟩
          rw [Ids.testBit_and, Ids.testBit_sub, hnb, hmbit]
          have hbitA : Ids.testBit (addrLookupAddr network_.sub
              (Ids.size network_.mask_) false bytes) i = true := by
            unfold addrLookupAddr
            by_cases hv : embedsV4 bytes = true
            · rw [if_pos hv, if_pos hv]
              apply testBit_addrEqLoop_of _ bytes _ (16 - 12) 12 _ i
              · unfold v4Storage
                rw [BitmapIndex.testBit_lookupP, hv4, hv]
                rfl
              · intro k hk1 hk2
                rw [BitmapIndex.testBit_lookupP, hbyt k (by omega)]
                simp
            · rw [if_neg hv, if_neg hv]
              apply testBit_addrEqLoop_of _ bytes _ (16 - 0) 0 _ i
              · rw [Ids.testBit_mkIds,
                  if_pos (testBit_true_lt _ _ hmbN)]
              · intro k hk1 hk2
                rw [BitmapIndex.testBit_lookupP, hbyt k (by omega)]
                simp
          have hbit : Ids.testBit ((((addrLookupAddr network_.sub
              (Ids.size network_.mask_) false bytes).sub
              network_.none_).and network_.mask_).and
              (length_.lookupP (fun l => decide (l = len)))) i
              = true := by
            rw [Ids.testBit_and, Ids.testBit_and, Ids.testBit_sub,
              hbitA, hmbN, hn0, testBit_empty,
              BitmapIndex.testBit_lookupP, hlrow]
            simp
          rw [hbit]
          rfl
    | portI num_ proto_ =>
        obtain ⟨hnsz2, hpsz, hrows⟩ := hsinv
        cases hgd : xs.getD i Data.none <;> rw [hgd] at hconf <;>
          simp [conformsScalar] at hconf
        next p t =>
          obtain ⟨hrn, hrp⟩ := hrows i p t hgd
          have hne : ¬(Ids.size vi.mask_ = 0) := by
            rw [hmask, size_mkIds]
            omega
          have hrbit : Ids.testBit (num_.lookupP
              (fun w => decide (w = p))) i = true := by
            rw [BitmapIndex.testBit_lookupP, hrn]
            simp
          have hnall : ¬((num_.lookupP (fun w => decide (w = p))).all0
              = true) := by
            intro hall
            rw [Ids.testBit_of_all0 _ hall i] at hrbit
            exact Bool.noConfusion hrbit
          by_cases ht : t = 0
          · subst ht
            have hcore : portLookupCore num_ proto_ (Ids.size vi.mask_)
                RelOp.equal p 0 =
                Except.ok (num_.lookupP (fun w => decide (w = p))) := by
              unfold portLookupCore
              rw [if_neg (by decide)]
              dsimp only [portNumLookup]
              rw [if_neg hnall, if_neg (by omega)]
            have himpl : subLookupImpl vi RelOp.equal (Data.portV p 0) =
                Except.ok (num_.lookupP (fun w => decide (w = p))) := by
              unfold subLookupImpl
              rw [hsub]
              unfold scalarLookupImpl scalarLookupImplWith
              dsimp only
              rw [if_neg hne]
              exact hcore
            refine ⟨_, lookup_wrap vi _ (by rfl) _ himpl, ?_⟩
            rw [Ids.testBit_and, Ids.testBit_sub, hnb, hmbit, hrbit]
            rfl
          · have hcore : portLookupCore num_ proto_ (Ids.size vi.mask_)
                RelOp.equal p t =
                Except.ok ((num_.lookupP (fun w => decide (w = p))).and
                  (proto_.lookupP (fun w => decide (w = t)))) := by
              unfold portLookupCore
              rw [if_neg (by decide)]
              dsimp only [portNumLookup]
              rw [if_neg hnall, if_pos ht]
            have himpl : subLookupImpl vi RelOp.equal (Data.portV p t) =
                Except.ok ((num_.lookupP (fun w => decide (w = p))).and
                  (proto_.lookupP (fun w => decide (w = t)))) := by
              unfold subLookupImpl
              rw [hsub]
              unfold scalarLookupImpl scalarLookupImplWith
              dsimp only
              rw [if_neg hne]
              exact hcore
            refine ⟨_, lookup_wrap vi _ (by rfl) _ himpl, ?_⟩
            rw [Ids.testBit_and, Ids.testBit_sub, Ids.testBit_and,
              hrbit, hnb, hmbit, BitmapIndex.testBit_lookupP, hrp]
            simp

end Vast

namespace Vast

/-- Counterexample for C2: for a sequence (vector/set) value index the
round trip fails outright.  A fresh sequence index over `count` elements,
after appending the one-element vector `[1]`, answers
`lookup(=, [1])` with an `unsupported_operator` error
(`sequence_index::lookup_impl` only supports `ni`/`!ni`), so no position
is reported at all. -/
theorem claim_C2_counterexample :
    ValueIndex.lookup
      (buildFrom
        ⟨[], [], SubIdx.seqI ScalarTy.countS 1024 BitmapIndex.empty []⟩
        [Data.vec [Data.num 1]])
      RelOp.equal ([Data.vec [Data.num 1]].getD 0 Data.none) =
      Except.error Ec.unsupportedOperator := by
  rfl

/-- Claim C2 (amended): for every scalar (non-sequence) value index in a
fresh factory state and every sequence `xs` of nil-or-type-conforming
values appended in order through `append(x)`, every position `i` is
reported by the equality lookup of its own value:
`lookup(=, xs[i])` succeeds and its bitmap has bit `i` set.  For
sequence (vector/set) indexes the property fails: their `lookup_impl`
rejects `=` with `unsupported_operator`, so the lookup returns an error
instead of a bitmap (see the counterexample). -/
theorem claim_C2_amended (sc0 : ScalarSub) (hf : freshScalar sc0)
    (xs : List Data)
    (hconf : ∀ i, i < List.length xs →
      (isNil (xs.getD i Data.none) ||
        conformsScalar sc0 (xs.getD i Data.none)) = true)
    (i : Nat) (hi : i < List.length xs) :
    ∃ r, ValueIndex.lookup (buildFrom (freshVI sc0) xs) RelOp.equal
        (xs.getD i Data.none) = Except.ok r ∧ Ids.testBit r i = true :=
  lookup_roundtrip sc0 _ xs (buildFrom_inv sc0 hf xs hconf) i hi
    (hconf i hi)

/-- Witness for C2 (amended): a fresh arithmetic index, the values
`[7, nil, 7]`; position 1 is found by `lookup(=, nil)` and position 2 by
`lookup(=, 7)`. -/
theorem claim_C2_witness :
    freshScalar (ScalarSub.arith Binner.identity BitmapIndex.empty) ∧
    (∀ i, i < List.length [Data.num 7, Data.none, Data.num 7] →
      (isNil ([Data.num 7, Data.none, Data.num 7].getD i Data.none) ||
        conformsScalar (ScalarSub.arith Binner.identity BitmapIndex.empty)
          ([Data.num 7, Data.none, Data.num 7].getD i Data.none))
        = true) ∧
    2 < List.length [Data.num 7, Data.none, Data.num 7] ∧
    (∃ r, ValueIndex.lookup
        (buildFrom (freshVI (ScalarSub.arith Binner.identity
          BitmapIndex.empty)) [Data.num 7, Data.none, Data.num 7])
        RelOp.equal
        ([Data.num 7, Data.none, Data.num 7].getD 2 Data.none) =
      Except.ok r ∧ Ids.testBit r 2 = true) := by
  have hconf : ∀ i, i < List.length [Data.num 7, Data.none, Data.num 7] →
      (isNil ([Data.num 7, Data.none, Data.num 7].getD i Data.none) ||
        conformsScalar (ScalarSub.arith Binner.identity BitmapIndex.empty)
          ([Data.num 7, Data.none, Data.num 7].getD i Data.none))
        = true := by
    intro i hi
    match i, hi with
    | 0, _ => rfl
    | 1, _ => rfl
    | 2, _ => rfl
  exact ⟨Or.inl ⟨Binner.identity, rfl⟩, hconf, by decide,
    claim_C2_amended (ScalarSub.arith Binner.identity BitmapIndex.empty)
      (Or.inl ⟨Binner.identity, rfl⟩)
      [Data.num 7, Data.none, Data.num 7] hconf 2 (by decide)⟩

end Vast
